import Mathlib

/-!
Verification of the protocol-translation core of the codebuddy2api gateway
(`src/codebuddy_router.py`, `src/codebuddy_api_client.py`).

The Python code is shallowly embedded: dict-shaped SSE chunks become
structures with `Option` fields (a `none` field models an absent key),
Python truthiness is made explicit, `json.loads` / `json.dumps` are
modelled by an executable JSON parser and serializer that follow the
behaviour of Python's `json` module (strict strings, the
`(0|[1-9]\d*)(\.\d+)?([eE][+-]?\d+)?` number grammar with the
`NaN`/`Infinity`/`-Infinity` constants, `", "` and `": "` separators and
`ensure_ascii=False`-style escaping on output, full-input consumption on
`loads`).
-/

namespace CodeBuddy

/-- JSON values as produced by the embedded `json.loads`.  Numeric tokens
are kept in their source form (`num "1"`, `num "2.5e3"`): Python turns
them into `int`/`float` and re-serializes, which agrees with the raw
token for the integer and plain-decimal payloads handled here. -/
inductive Json where
  | null : Json
  | bool (b : Bool) : Json
  | num (s : String) : Json
  | str (s : String) : Json
  | arr (xs : List Json) : Json
  | obj (kvs : List (String × Json)) : Json
deriving Repr

abbrev Chars := List Char

/-- JSON whitespace, as skipped by Python's `json` scanner. -/
def isJsonWs (c : Char) : Bool :=
  c = ' ' || c = '\t' || c = '\n' || c = '\r'

/-- Skip leading JSON whitespace. -/
def skipWs : Chars → Chars
  | [] => []
  | c :: cs => if isJsonWs c then skipWs cs else c :: cs

/-- Hexadecimal digit value, for `\uXXXX` escapes. -/
def hexVal? (c : Char) : Option Nat :=
  if '0' ≤ c ∧ c ≤ '9' then some (c.toNat - '0'.toNat)
  else if 'a' ≤ c ∧ c ≤ 'f' then some (c.toNat - 'a'.toNat + 10)
  else if 'A' ≤ c ∧ c ≤ 'F' then some (c.toNat - 'A'.toNat + 10)
  else none

/-- Lex the body of a JSON string (the opening quote already consumed),
accumulating decoded characters.  Strict mode: raw control characters
are rejected; the escapes are `\" \\ \/ \b \f \n \r \t \uXXXX`. -/
def lexStr : Chars → List Char → Option (String × Chars)
  | [], _ => none
  | c :: cs, acc =>
    if c = '"' then some (String.mk acc.reverse, cs)
    else if c = '\\' then
      match cs with
      | [] => none
      | e :: cs' =>
        if e = '"' then lexStr cs' ('"' :: acc)
        else if e = '\\' then lexStr cs' ('\\' :: acc)
        else if e = '/' then lexStr cs' ('/' :: acc)
        else if e = 'b' then lexStr cs' ('\x08' :: acc)
        else if e = 'f' then lexStr cs' ('\x0c' :: acc)
        else if e = 'n' then lexStr cs' ('\n' :: acc)
        else if e = 'r' then lexStr cs' ('\r' :: acc)
        else if e = 't' then lexStr cs' ('\t' :: acc)
        else if e = 'u' then
          match cs' with
          | h1 :: h2 :: h3 :: h4 :: cs'' =>
            match hexVal? h1, hexVal? h2, hexVal? h3, hexVal? h4 with
            | some a, some b, some c', some d =>
              lexStr cs'' (Char.ofNat (((a * 16 + b) * 16 + c') * 16 + d) :: acc)
            | _, _, _, _ => none
          | _ => none
        else none
    else if c.toNat < 0x20 then none
    else lexStr cs (c :: acc)

/-- Take the longest run of ASCII digits. -/
def takeDigits : Chars → Chars × Chars
  | [] => ([], [])
  | c :: cs =>
    if c.isDigit then (c :: (takeDigits cs).1, (takeDigits cs).2)
    else ([], c :: cs)

/-- Lex the integer part of a number: `0` or `[1-9][0-9]*`. -/
def lexInt : Chars → Option (Chars × Chars)
  | [] => none
  | c :: cs =>
    if c = '0' then some (['0'], cs)
    else if c.isDigit then some (c :: (takeDigits cs).1, (takeDigits cs).2)
    else none

/-- Lex an optional fraction part `\.\d+` (empty if absent). -/
def lexFrac : Chars → Chars × Chars
  | [] => ([], [])
  | c :: cs =>
    if c = '.' then
      if (takeDigits cs).1 = [] then ([], '.' :: cs)
      else ('.' :: (takeDigits cs).1, (takeDigits cs).2)
    else ([], c :: cs)

/-- Lex an optional exponent part `[eE][+-]?\d+` (empty if absent). -/
def lexExp : Chars → Chars × Chars
  | [] => ([], [])
  | e :: cs =>
    if e = 'e' ∨ e = 'E' then
      match cs with
      | [] => ([], [e])
      | c :: r =>
        if c = '+' ∨ c = '-' then
          if (takeDigits r).1 = [] then ([], e :: c :: r)
          else (e :: c :: (takeDigits r).1, (takeDigits r).2)
        else
          if (takeDigits (c :: r)).1 = [] then ([], e :: c :: r)
          else (e :: (takeDigits (c :: r)).1, (takeDigits (c :: r)).2)
    else ([], e :: cs)

/-- Unsigned part of a number token: integer part, then optional
fraction and exponent. -/
def lexNumCore (cs : Chars) : Option (Chars × Chars) :=
  match lexInt cs with
  | none => none
  | some (ip, cs2) =>
    some (ip ++ (lexFrac cs2).1 ++ (lexExp (lexFrac cs2).2).1,
      (lexExp (lexFrac cs2).2).2)

/-- Lex a JSON number token `-?(0|[1-9]\d*)(\.\d+)?([eE][+-]?\d+)?`,
returning the token characters and the remainder. -/
def lexNum : Chars → Option (Chars × Chars)
  | [] => none
  | c :: r =>
    if c = '-' then
      match lexNumCore r with
      | none => none
      | some (t, r2) => some ('-' :: t, r2)
    else lexNumCore (c :: r)

/-- Drop a literal character sequence from the input, if present. -/
def dropLit : Chars → Chars → Option Chars
  | [], cs => some cs
  | _, [] => none
  | p :: ps, c :: cs => if p = c then dropLit ps cs else none

mutual

/-- Fuel-indexed JSON value parser following Python's `json` scanner:
dispatch on the first character, with `null`/`true`/`false` and the
`NaN`/`Infinity`/`-Infinity` constants matched as literal slices.  A
number token is tried before the literal constants; this is
semantics-preserving (Python tries the constants in between) because no
input both lexes as a number and starts with one of the constants. -/
def parseVal : Nat → Chars → Option (Json × Chars)
  | 0, _ => none
  | fuel + 1, cs =>
    match cs with
    | [] => none
    | c :: r =>
      if c = '{' then
        match skipWs r with
        | [] => none
        | d :: r1 =>
          if d = '}' then some (.obj [], r1)
          else
            match parseMembers fuel (d :: r1) with
            | some (kvs, r2) => some (.obj kvs, r2)
            | none => none
      else if c = '[' then
        match skipWs r with
        | [] => none
        | d :: r1 =>
          if d = ']' then some (.arr [], r1)
          else
            match parseItems fuel (d :: r1) with
            | some (xs, r2) => some (.arr xs, r2)
            | none => none
      else if c = '"' then
        match lexStr r [] with
        | some (s, r1) => some (.str s, r1)
        | none => none
      else
        match lexNum (c :: r) with
        | some (t, r1) => some (.num (String.mk t), r1)
        | none =>
        match dropLit ['n', 'u', 'l', 'l'] (c :: r) with
        | some r1 => some (.null, r1)
        | none =>
        match dropLit ['t', 'r', 'u', 'e'] (c :: r) with
        | some r1 => some (.bool true, r1)
        | none =>
        match dropLit ['f', 'a', 'l', 's', 'e'] (c :: r) with
        | some r1 => some (.bool false, r1)
        | none =>
        match dropLit ['N', 'a', 'N'] (c :: r) with
        | some r1 => some (.num "NaN", r1)
        | none =>
        match dropLit ['I', 'n', 'f', 'i', 'n', 'i', 't', 'y'] (c :: r) with
        | some r1 => some (.num "Infinity", r1)
        | none =>
        match dropLit ['-', 'I', 'n', 'f', 'i', 'n', 'i', 't', 'y'] (c :: r) with
        | some r1 => some (.num "-Infinity", r1)
        | none => none

/-- Parse one or more `"key": value` members followed by `}`. -/
def parseMembers : Nat → Chars → Option (List (String × Json) × Chars)
  | 0, _ => none
  | fuel + 1, cs =>
    match cs with
    | [] => none
    | c :: r =>
      if c = '"' then
        match lexStr r [] with
        | some (k, r1) =>
          match skipWs r1 with
          | [] => none
          | c2 :: r2 =>
            if c2 = ':' then
              match parseVal fuel (skipWs r2) with
              | some (v, r3) =>
                match skipWs r3 with
                | [] => none
                | c3 :: r4 =>
                  if c3 = ',' then
                    match parseMembers fuel (skipWs r4) with
                    | some (kvs, r5) => some ((k, v) :: kvs, r5)
                    | none => none
                  else if c3 = '}' then some ([(k, v)], r4)
                  else none
              | none => none
            else none
        | none => none
      else none

/-- Parse one or more array items followed by `]`. -/
def parseItems : Nat → Chars → Option (List Json × Chars)
  | 0, _ => none
  | fuel + 1, cs =>
    match parseVal fuel cs with
    | some (v, r) =>
      match skipWs r with
      | [] => none
      | c :: r1 =>
        if c = ',' then
          match parseItems fuel (skipWs r1) with
          | some (xs, r2) => some (v :: xs, r2)
          | none => none
        else if c = ']' then some ([v], r1)
        else none
    | none => none

end

/-- The embedded `json.loads`: skip surrounding whitespace, parse one
value, and require the whole input to be consumed; `none` models a
raised `json.JSONDecodeError`. -/
def jsonLoads (s : String) : Option Json :=
  match parseVal (s.length + 1) (skipWs s.data) with
  | some (v, rest) => if skipWs rest = [] then some v else none
  | none => none

/-- Lower-case hexadecimal digit for a value below 16. -/
def hexDigit (k : Nat) : Char :=
  if k < 10 then Char.ofNat ('0'.toNat + k) else Char.ofNat ('a'.toNat + k - 10)

/-- Serialization of one character inside a JSON string, following
`json.dumps(..., ensure_ascii=False)`: escape `"` and `\`, use the short
escapes for the named control characters, `\u00XX` for the remaining
control characters, and emit everything else literally. -/
def escChar (c : Char) : List Char :=
  if c = '"' then ['\\', '"']
  else if c = '\\' then ['\\', '\\']
  else if c = '\x08' then ['\\', 'b']
  else if c = '\x0c' then ['\\', 'f']
  else if c = '\n' then ['\\', 'n']
  else if c = '\r' then ['\\', 'r']
  else if c = '\t' then ['\\', 't']
  else if c.toNat < 0x20 then
    ['\\', 'u', '0', '0', hexDigit (c.toNat / 16), hexDigit (c.toNat % 16)]
  else [c]

/-- Serialize a string with surrounding quotes. -/
def encStr (s : String) : Chars :=
  '"' :: (s.data.flatMap escChar ++ ['"'])

mutual

/-- The embedded `json.dumps(..., ensure_ascii=False)` with the default
separators `", "` and `": "`. -/
def dumpsVal : Json → Chars
  | .null => ['n', 'u', 'l', 'l']
  | .bool b => if b then ['t', 'r', 'u', 'e'] else ['f', 'a', 'l', 's', 'e']
  | .num s => s.data
  | .str s => encStr s
  | .arr [] => ['[', ']']
  | .arr (x :: xs) => '[' :: (dumpsVal x ++ dumpsItems xs ++ [']'])
  | .obj [] => ['{', '}']
  | .obj (kv :: kvs) =>
    '{' :: (encStr kv.1 ++ ':' :: ' ' :: dumpsVal kv.2 ++ dumpsMembers kvs ++ ['}'])

/-- Remaining array items, each preceded by `", "`. -/
def dumpsItems : List Json → Chars
  | [] => []
  | x :: xs => ',' :: ' ' :: (dumpsVal x ++ dumpsItems xs)

/-- Remaining object members, each preceded by `", "`. -/
def dumpsMembers : List (String × Json) → Chars
  | [] => []
  | kv :: kvs => ',' :: ' ' :: (encStr kv.1 ++ ':' :: ' ' :: dumpsVal kv.2 ++ dumpsMembers kvs)

end

/-- The embedded `json.dumps` as a `String`. -/
def jsonDumps (v : Json) : String := String.mk (dumpsVal v)

/-- A string is syntactically valid JSON when the embedded `json.loads`
accepts it. -/
def isValidJson (s : String) : Bool := (jsonLoads s).isSome

/-- Characters stripped by Python's `str.strip()` (the ASCII whitespace
set; the exotic Unicode spaces are out of the modelled input alphabet). -/
def pyIsSpace (c : Char) : Bool :=
  c = ' ' || c = '\t' || c = '\n' || c = '\r' || c = '\x0b' || c = '\x0c'

/-- Python `str.strip()` on a character list. -/
def pyStripChars (cs : Chars) : Chars :=
  ((cs.dropWhile pyIsSpace).reverse.dropWhile pyIsSpace).reverse

/-- Python `str.strip()`. -/
def pyStrip (s : String) : String := String.mk (pyStripChars s.data)

/-- Python `str.endswith(t)`, computed on the character lists. -/
def pyEndsWith (s t : String) : Bool :=
  s.data.drop (s.data.length - t.data.length) == t.data

/-- Python `args.count('}{')`: non-overlapping occurrences of the
two-character pattern (the scan advances past each match). -/
def countBraceJoin : Chars → Nat
  | '}' :: '{' :: rest => countBraceJoin rest + 1
  | _ :: rest => countBraceJoin rest
  | [] => 0

/-- The character-by-character splitting loop of
`validate_and_fix_tool_call_args` (`codebuddy_router.py` lines 212-228):
accumulate characters into `cur`, track a brace depth counter, and each
time the counter returns to zero on a `}` try to `json.loads` the
stripped accumulator, collecting successfully parsed objects; the
accumulator is reset whether or not the parse succeeded. -/
def splitScan : Chars → Chars → Int → List Json → List Json
  | [], _, _, objs => objs
  | c :: rest, cur, brace, objs =>
    let cur' := cur ++ [c]
    if c = '{' then splitScan rest cur' (brace + 1) objs
    else if c = '}' then
      let brace' := brace - 1
      if brace' = 0 ∧ ¬(pyStripChars cur').isEmpty then
        match jsonLoads (String.mk (pyStripChars cur')) with
        | some v => splitScan rest [] brace' (objs ++ [v])
        | none => splitScan rest [] brace' objs
      else splitScan rest cur' brace' objs
    else splitScan rest cur' brace objs

/-- The embedded `validate_and_fix_tool_call_args` (`codebuddy_router.py`
lines 201-254).  Empty input short-circuits to `"\x7b\x7d"`; the input is
stripped; if the `\x7d\x7b` pattern occurs, the depth-counting split is
attempted and the first successfully parsed object is re-serialized;
otherwise (or if the split found nothing) the input is returned when it
already parses, a missing trailing `\x7d` or `\x5d` is appended when the
bracket counts call for it, and `"\x7b\x7d"` is the final fallback. -/
def validate_and_fix_tool_call_args (args : String) : String :=
  if args.isEmpty then "\x7b\x7d"
  else
    let args := pyStrip args
    let viaSplit : Option String :=
      if countBraceJoin args.data > 0 then
        match splitScan args.data [] 0 [] with
        | [] => none
        | v :: _ => some (jsonDumps v)
      else none
    match viaSplit with
    | some out => out
    | none =>
      match jsonLoads args with
      | some _ => args
      | none =>
        let args' :=
          if ¬pyEndsWith args "\x7d" ∧ args.data.count '{' > args.data.count '}' then
            args ++ "\x7d"
          else if ¬pyEndsWith args "\x5d" ∧ args.data.count '[' > args.data.count ']' then
            args ++ "\x5d"
          else args
        match jsonLoads args' with
        | some _ => args'
        | none => "\x7b\x7d"

/-! ### Well-formedness of parsed JSON values

`wfB` records exactly the shape invariants that `parseVal` guarantees for
the values it returns; they are what the `dumps`-then-`loads` round trip
needs (a `num` payload is a complete number token or one of the three
constants). -/

/-- The string is a complete number token: the lexer consumes all of it. -/
def numLex (s : String) : Bool :=
  match lexNum s.data with
  | some (t, r) => decide (t = s.data ∧ r = [])
  | none => false

mutual

/-- Well-formedness of a JSON value as produced by the parser. -/
def wfB : Json → Bool
  | .null => true
  | .bool _ => true
  | .str _ => true
  | .num s => s == "NaN" || s == "Infinity" || s == "-Infinity" || numLex s
  | .arr xs => wfL xs
  | .obj kvs => wfM kvs

/-- Well-formedness of a list of JSON values. -/
def wfL : List Json → Bool
  | [] => true
  | x :: xs => wfB x && wfL xs

/-- Well-formedness of a list of JSON object members. -/
def wfM : List (String × Json) → Bool
  | [] => true
  | kv :: kvs => wfB kv.2 && wfM kvs

end

mutual

/-- Fuel needed by `parseVal` to parse the serialization of a value. -/
def needV : Json → Nat
  | .null => 1
  | .bool _ => 1
  | .num _ => 1
  | .str _ => 1
  | .arr xs => needL xs + 1
  | .obj kvs => needM kvs + 1

/-- Fuel needed by `parseItems` for a list of serialized items. -/
def needL : List Json → Nat
  | [] => 0
  | x :: xs => needV x + needL xs + 1

/-- Fuel needed by `parseMembers` for a list of serialized members. -/
def needM : List (String × Json) → Nat
  | [] => 0
  | kv :: kvs => needV kv.2 + needM kvs + 1

end

/-! ### Decoded chunks and the Stream Translator

The vendor SSE chunks are JSON dicts; they are embedded as structures
whose `Option` fields model absent keys (the modelled chunk domain has
no explicit `null` values).  Python truthiness (`if d.get(k):`) is made
explicit: an absent key and an empty string are both falsy. -/

/-- Truthiness of an optional string, as in `if tc.get('id'):`. -/
def isTruthy : Option String → Bool
  | none => false
  | some s => !s.isEmpty

/-- Python `a or b` on optional strings: `b` when `a` is falsy. -/
def pyOr (a b : Option String) : Option String := if isTruthy a then a else b

/-- Python `opt or default` yielding a plain string. -/
def pyOrStr (o : Option String) (d : String) : String :=
  match o with
  | some s => if s.isEmpty then d else s
  | none => d

/-- The `function` sub-dict of a tool-call fragment. -/
structure FragFunction where
  name : Option String := none
  arguments : Option String := none
deriving Repr, DecidableEq

/-- One element of a chunk's `delta.tool_calls` list. -/
structure ToolCallFragment where
  id : Option String := none
  type : Option String := none
  index : Option Nat := none
  function : Option FragFunction := none
deriving Repr, DecidableEq

/-- A chunk's `delta` dict. -/
structure Delta where
  content : Option String := none
  tool_calls : List ToolCallFragment := []
deriving Repr, DecidableEq

/-- One element of a chunk's `choices` list. -/
structure Choice where
  delta : Option Delta := none
  finish_reason : Option String := none
deriving Repr, DecidableEq

/-- A decoded SSE chunk (`usage` is modelled as a numeric JSON object;
only its truthiness and identity matter to the embedded code). -/
structure Chunk where
  id : Option String := none
  model : Option String := none
  system_fingerprint : Option String := none
  usage : Option (List (String × Nat)) := none
  choices : List Choice := []
deriving Repr, DecidableEq

/-- Truthiness of the `usage` value (absent or empty dict is falsy). -/
def truthyUsage : Option (List (String × Nat)) → Bool
  | none => false
  | some u => !u.isEmpty

/-- The per-stream `tool_call_index_map`: an insertion-ordered dict from
vendor tool-call id to assigned index. -/
abbrev IdxMap := List (String × Nat)

/-- The embedded `OpenAICompatibilityConverter.convert_tool_call_id`
(`codebuddy_router.py` lines 138-142): `tooluse_<rest>` becomes
`call_<rest>`, everything else passes through.  `startswith('tooluse_')`
is expressed as a check on the first eight characters. -/
def convert_tool_call_id (cid : String) : String :=
  if cid.data.take 8 = "tooluse_".data then
    String.mk ('c' :: 'a' :: 'l' :: 'l' :: '_' :: cid.data.drop 8)
  else cid

/-- Python `max(m.values())` (meaningful only for a non-empty map, which
is how the source guards the call). -/
def maxValues (m : IdxMap) : Nat := m.foldl (fun acc p => max acc p.2) 0

/-- Conversion of a single tool-call fragment with the running index
map (`codebuddy_router.py` lines 159-179).  A fragment with a truthy id
has its id translated and is assigned the map's index for the original
id (allocating `len(map)` on first sight); a fragment without an id gets
`max(map.values())` when the map is non-empty, else passes unchanged. -/
def convertFrag (m : IdxMap) (tc : ToolCallFragment) : IdxMap × ToolCallFragment :=
  if isTruthy tc.id then
    let original_id := tc.id.getD ""
    let converted_id := convert_tool_call_id original_id
    let m' := if (m.lookup original_id).isSome then m else m ++ [(original_id, m.length)]
    (m', { tc with id := some converted_id, index := m'.lookup original_id })
  else if m.isEmpty then (m, tc)
  else (m, { tc with index := some (maxValues m) })

/-- Left-to-right conversion of a fragment list, threading the map. -/
def convertFrags (m : IdxMap) : List ToolCallFragment → IdxMap × List ToolCallFragment
  | [] => (m, [])
  | tc :: tcs =>
    let r1 := convertFrag m tc
    let r2 := convertFrags r1.1 tcs
    (r2.1, r1.2 :: r2.2)

/-- The embedded
`OpenAICompatibilityConverter.convert_sse_chunk_to_openai_format`
(`codebuddy_router.py` lines 145-185), as the value it returns: chunks
without choices or without tool calls are returned unchanged, otherwise
the first choice's `delta.tool_calls` is replaced by the converted
fragments.  (The in-place aliasing effect of the Python original is
modelled separately on the heap model below.) -/
def convertChunk (chunk : Chunk) (m : IdxMap) : Chunk × IdxMap :=
  match chunk.choices with
  | [] => (chunk, m)
  | choice :: rest =>
    let delta := choice.delta.getD {}
    if delta.tool_calls.isEmpty then (chunk, m)
    else
      let r := convertFrags m delta.tool_calls
      ({ chunk with
          choices := { choice with delta := some { delta with tool_calls := r.2 } } :: rest },
        r.1)

/-- Conversion of a whole chunk stream with one per-stream map, as done
by `stream_core` (`codebuddy_router.py` lines 446-504). -/
def convertStream : List Chunk → IdxMap → List Chunk × IdxMap
  | [], m => ([], m)
  | c :: cs, m =>
    let r1 := convertChunk c m
    let r2 := convertStream cs r1.2
    (r1.1 :: r2.1, r2.2)

/-- The converted chunks of a stream, starting from the empty map. -/
def convertAll (chunks : List Chunk) : List Chunk := (convertStream chunks []).1

/-- The text delta a chunk carries (`choices[0].delta.content`), empty
when absent. -/
def chunkContent (c : Chunk) : String :=
  match c.choices with
  | [] => ""
  | ch :: _ => ((ch.delta.getD {}).content).getD ""

/-- Concatenation of the text deltas of the chunks the Stream
Translator re-serializes in streaming mode. -/
def emittedContent (chunks : List Chunk) : String :=
  String.join ((convertAll chunks).map chunkContent)

/-! ### The Response Aggregator -/

/-- A finalized tool-call entry (`self.tool_call_map` values). -/
structure ToolEntry where
  id : String
  type : String
  name : String
  arguments : String
deriving Repr, DecidableEq

/-- The aggregator's `self.data` dict (`codebuddy_router.py` lines
290-299). -/
structure AggData where
  id : Option String := none
  model : Option String := none
  content : String := ""
  tool_calls : List ToolEntry := []
  finish_reason : Option String := none
  usage : Option (List (String × Nat)) := none
  system_fingerprint : Option String := none
deriving Repr, DecidableEq

/-- The full `StreamResponseAggregator` state: `data`, the id-keyed
tool-call map, the first-seen order list, and the current tool id.  Note
that the class has no open/finalized flag of any kind. -/
structure AggState where
  data : AggData := {}
  tool_call_map : List (String × ToolEntry) := []
  tool_call_order : List String := []
  current_tool_id : Option String := none
deriving Repr, DecidableEq

/-- In-place update of one entry of an insertion-ordered dict. -/
def mapUpdate (m : List (String × ToolEntry)) (k : String)
    (f : ToolEntry → ToolEntry) : List (String × ToolEntry) :=
  m.map fun p => if p.1 = k then (p.1, f p.2) else p

/-- The embedded `StreamResponseAggregator._process_tool_calls` body for
one fragment (`codebuddy_router.py` lines 335-377). -/
def processToolCall (st : AggState) (tc : ToolCallFragment) : AggState :=
  if isTruthy tc.id then
    let tool_id := tc.id.getD ""
    let st :=
      if (st.tool_call_map.lookup tool_id).isNone then
        { st with
            tool_call_map := st.tool_call_map ++
              [(tool_id,
                { id := tool_id, type := (tc.type).getD "function", name := "", arguments := "" })],
            tool_call_order := st.tool_call_order ++ [tool_id],
            current_tool_id := some tool_id }
      else { st with current_tool_id := some tool_id }
    let st :=
      if isTruthy tc.type then
        { st with tool_call_map := mapUpdate st.tool_call_map tool_id (fun e => { e with type := tc.type.getD "" }) }
      else st
    let func := tc.function.getD {}
    let st :=
      if isTruthy func.name then
        { st with tool_call_map := mapUpdate st.tool_call_map tool_id (fun e => { e with name := func.name.getD "" }) }
      else st
    if isTruthy func.arguments then
      { st with tool_call_map := mapUpdate st.tool_call_map tool_id (fun e => { e with arguments := e.arguments ++ func.arguments.getD "" }) }
    else st
  else
    match st.current_tool_id with
    | some cur =>
      if !cur.isEmpty ∧ (st.tool_call_map.lookup cur).isSome then
        let func := tc.function.getD {}
        let st :=
          if isTruthy func.name then
            { st with tool_call_map := mapUpdate st.tool_call_map cur (fun e => { e with name := func.name.getD "" }) }
          else st
        if isTruthy func.arguments then
          { st with tool_call_map := mapUpdate st.tool_call_map cur (fun e => { e with arguments := e.arguments ++ func.arguments.getD "" }) }
        else st
      else st
    | none => st

/-- The embedded `StreamResponseAggregator.process_chunk`
(`codebuddy_router.py` lines 305-331). -/
def process_chunk (st : AggState) (obj : Chunk) : AggState :=
  let d := st.data
  let d := { d with
      id := pyOr d.id obj.id,
      model := pyOr d.model obj.model,
      system_fingerprint := pyOr obj.system_fingerprint d.system_fingerprint }
  let d := if truthyUsage obj.usage then { d with usage := obj.usage } else d
  let st := { st with data := d }
  match obj.choices with
  | [] => st
  | choice :: _ =>
    let st :=
      if isTruthy choice.finish_reason then
        { st with data := { st.data with finish_reason := choice.finish_reason } }
      else st
    let delta := choice.delta.getD {}
    let st :=
      if isTruthy delta.content then
        { st with data := { st.data with content := st.data.content ++ delta.content.getD "" } }
      else st
    if delta.tool_calls.isEmpty then st
    else delta.tool_calls.foldl processToolCall st

/-- Aggregation of a whole decoded-chunk stream from the initial state,
as `handle_non_stream_response` does. -/
def aggregateList (chunks : List Chunk) : AggState :=
  chunks.foldl process_chunk {}

/-- The final message of the aggregated response (`tool_calls` attached
only when non-empty). -/
structure FinalMessage where
  role : String
  content : String
  tool_calls : Option (List ToolEntry)
deriving Repr, DecidableEq

/-- The single choice of the final response (`logprobs` is always
`None` and is omitted). -/
structure FinalChoice where
  index : Nat
  message : FinalMessage
  finish_reason : String
deriving Repr, DecidableEq

/-- The final chat-completion document built by `finalize`. -/
structure FinalResponse where
  id : String
  objectTag : String
  created : Nat
  model : String
  choices : List FinalChoice
  usage : Option (List (String × Nat)) := none
  system_fingerprint : Option String := none
deriving Repr, DecidableEq

/-- The `finalize` loop over `tool_call_order`: mutate each found map
entry's arguments through Argument Repair and collect the entries in
order; ids missing from the map are skipped. -/
def finalizeToolCalls : List String → List (String × ToolEntry) →
    List (String × ToolEntry) × List ToolEntry
  | [], m => (m, [])
  | tid :: tids, m =>
    match m.lookup tid with
    | some tc =>
      let tc' := { tc with arguments := validate_and_fix_tool_call_args tc.arguments }
      let m' := mapUpdate m tid (fun _ => tc')
      let r := finalizeToolCalls tids m'
      (r.1, tc' :: r.2)
    | none => finalizeToolCalls tids m

/-- The embedded `StreamResponseAggregator.finalize`
(`codebuddy_router.py` lines 379-423).  `now` stands for
`int(time.time())` and `freshId` for `str(uuid.uuid4())`.  It returns
the final response together with the mutated aggregator state (the
source mutates `self.data` and the map entries in place and has no
finalized flag). -/
def finalize (st : AggState) (now : Nat) (freshId : String) :
    AggState × FinalResponse :=
  let st :=
    if st.tool_call_map.isEmpty then st
    else
      let r := finalizeToolCalls st.tool_call_order st.tool_call_map
      { st with tool_call_map := r.1, data := { st.data with tool_calls := r.2 } }
  let final_message : FinalMessage :=
    { role := "assistant",
      content := st.data.content,
      tool_calls := if st.data.tool_calls.isEmpty then none else some st.data.tool_calls }
  let finish_reason :=
    if !st.data.tool_calls.isEmpty then "tool_calls"
    else pyOrStr st.data.finish_reason "stop"
  let response : FinalResponse :=
    { id := pyOrStr st.data.id freshId,
      objectTag := "chat.completion",
      created := now,
      model := pyOrStr st.data.model "unknown",
      choices := [{ index := 0, message := final_message, finish_reason := finish_reason }],
      usage := if truthyUsage st.data.usage then st.data.usage else none,
      system_fingerprint :=
        if isTruthy st.data.system_fingerprint then st.data.system_fingerprint else none }
  (st, response)

/-! ### The resilient stream transport (`SSEConnectionManager`) -/

/-- What one attempt of the wrapped streaming call does: it yields some
events and then either finishes, raises a transient transport error
(`httpx.TimeoutException` / `httpx.NetworkError`), or raises any other
exception. -/
inductive Outcome where
  | success
  | transient
  | fatal
deriving Repr, DecidableEq

/-- Events observable at the caller of `stream_with_retry`
(`codebuddy_router.py` lines 263-285): forwarded data chunks, the
`connection_retry` diagnostic event (with its wait and 1-based attempt
number), the `asyncio.sleep` backoff, the terminal `connection_failed`
event, and the `stream_error` event emitted for non-transient
exceptions. -/
inductive TraceEv (α : Type) where
  | data (a : α)
  | retrying (wait : ℚ) (attempt : Nat)
  | sleep (wait : ℚ)
  | failedNote (maxRetries : Nat)
  | errorNote
deriving Repr, DecidableEq

/-- How `stream_with_retry` terminates: normally, or re-raising the
transient error after exhausting retries, or re-raising a non-transient
exception immediately. -/
inductive RunResult where
  | ok
  | raisedTransient
  | raisedFatal
deriving Repr, DecidableEq

/-- The embedded retry loop `for attempt in range(max_retries + 1)` of
`SSEConnectionManager.stream_with_retry`, from a given attempt number
with the remaining iteration count as fuel.  On a transient failure
before the last attempt it yields a `connection_retry` event, sleeps
`retry_delay * 2 ** attempt`, and continues; on the last it yields
`connection_failed` and re-raises; any other exception yields
`stream_error` and re-raises at once. -/
def runRetry (att : Nat → List α × Outcome) (maxRetries : Nat) (retryDelay : ℚ) :
    Nat → Nat → List (TraceEv α) × RunResult
  | _, 0 => ([], .ok)
  | attempt, fuel + 1 =>
    let r := att attempt
    match r.2 with
    | .success => (r.1.map .data, .ok)
    | .fatal => (r.1.map .data ++ [.errorNote], .raisedFatal)
    | .transient =>
      if attempt < maxRetries then
        let wait := retryDelay * 2 ^ attempt
        let rest := runRetry att maxRetries retryDelay (attempt + 1) fuel
        (r.1.map .data ++ .retrying wait (attempt + 1) :: .sleep wait :: rest.1, rest.2)
      else (r.1.map .data ++ [.failedNote maxRetries], .raisedTransient)

/-- `SSEConnectionManager.stream_with_retry` run from attempt 0. -/
def stream_with_retry (att : Nat → List α × Outcome) (maxRetries : Nat)
    (retryDelay : ℚ) : List (TraceEv α) × RunResult :=
  runRetry att maxRetries retryDelay 0 (maxRetries + 1)

/-- The backoff waits actually slept in a trace. -/
def sleepsOf : List (TraceEv α) → List ℚ
  | [] => []
  | .sleep w :: tr => w :: sleepsOf tr
  | _ :: tr => sleepsOf tr

/-- The number of `connection_retry` diagnostic events in a trace. -/
def countRetrying : List (TraceEv α) → Nat
  | [] => 0
  | .retrying _ _ :: tr => countRetrying tr + 1
  | _ :: tr => countRetrying tr

/-! ### Upstream request headers (`CodeBuddyAPIClient`) -/

/-- The second, unconditional header dict literal of
`generate_codebuddy_headers` (`codebuddy_api_client.py` lines 234-258),
which depends on nothing but the bearer token. -/
def fixedCodeBuddyHeaders (bearer_token : String) : List (String × String) :=
  [("Accept", "text/event-stream"),
   ("Content-Type", "application/json"),
   ("X-Requested-With", "XMLHttpRequest"),
   ("X-B3-ParentSpanId", ""),
   ("X-B3-Sampled", "1"),
   ("X-Agent-Intent", "CodeCompletion"),
   ("X-Env-ID", "production"),
   ("Authorization", "Bearer " ++ bearer_token),
   ("X-User-Id", "56277846-534b-4f8d-b8b4-9793936bc07c"),
   ("X-Domain", "copilot.tencent.com"),
   ("User-Agent", ""),
   ("X-Product", "SaaS")]

/-- The embedded `CodeBuddyAPIClient.generate_codebuddy_headers`
(`codebuddy_api_client.py` lines 193-259).  The four `fresh*` arguments
stand for the `uuid.uuid4()` / `secrets.token_hex(16)` values drawn when
a per-request id is not supplied.  The function builds a first header
dict from its arguments and then rebinds `headers` to a second literal
dict, exactly as the source does, so the first dict is dead. -/
def generate_codebuddy_headers (freshConv freshReq freshMsg freshRid : String)
    (bearer_token : String) (user_id conversation_id conversation_request_id
    conversation_message_id request_id : Option String) : List (String × String) :=
  let headers : List (String × String) :=
    [("Host", "www.codebuddy.ai"),
     ("Accept", "application/json"),
     ("Content-Type", "application/json"),
     ("X-Requested-With", "XMLHttpRequest"),
     ("x-stainless-arch", "x64"),
     ("x-stainless-lang", "js"),
     ("x-stainless-os", "Windows"),
     ("x-stainless-package-version", "5.10.1"),
     ("x-stainless-retry-count", "0"),
     ("x-stainless-runtime", "node"),
     ("x-stainless-runtime-version", "v22.13.1"),
     ("X-Conversation-ID", pyOrStr conversation_id freshConv),
     ("X-Conversation-Request-ID", pyOrStr conversation_request_id freshReq),
     ("X-Conversation-Message-ID", pyOrStr conversation_message_id freshMsg),
     ("X-Request-ID", pyOrStr request_id freshRid),
     ("X-Agent-Intent", "craft"),
     ("X-IDE-Type", "CLI"),
     ("X-IDE-Name", "CLI"),
     ("X-IDE-Version", "1.0.7"),
     ("Authorization", "Bearer " ++ bearer_token),
     ("X-Domain", "www.codebuddy.ai"),
     ("User-Agent", "CLI/1.0.7 CodeBuddy/1.0.7"),
     ("X-Product", "SaaS"),
     ("X-User-Id", pyOrStr user_id "b5be3a67-237e-4ee6-9b9a-0b9ecd7b454b")]
  let headers := fixedCodeBuddyHeaders bearer_token
  headers

/-! ### A small Python heap model for the aliasing behaviour of
`convert_sse_chunk_to_openai_format`

The structural `convertChunk` above gives the returned value; the source
additionally mutates through a shared reference: `chunk_data.copy()` is
a shallow copy, so `converted_chunk['choices'][0]['delta']` is the very
delta dict of the input chunk, and assigning its `tool_calls` key writes
into the input.  Dicts and lists live on a heap of addressed cells;
strings and numbers are immediate. -/

/-- Immediate values and references of the Python object model. -/
inductive PyVal where
  | vStr (s : String)
  | vNat (n : Nat)
  | vNone
  | vRef (a : Nat)
deriving Repr, DecidableEq

/-- Heap cells: dicts (insertion-ordered) and lists. -/
inductive PyObj where
  | pDict (entries : List (String × PyVal))
  | pList (items : List PyVal)
deriving Repr, DecidableEq

/-- The heap: an address-keyed store and the next fresh address. -/
structure Heap where
  cells : List (Nat × PyObj)
  next : Nat
deriving Repr, DecidableEq

/-- Read a heap cell. -/
def Heap.get (h : Heap) (a : Nat) : Option PyObj := h.cells.lookup a

/-- Overwrite a heap cell in place. -/
def Heap.set (h : Heap) (a : Nat) (o : PyObj) : Heap :=
  { h with cells := h.cells.map fun p => if p.1 = a then (a, o) else p }

/-- Allocate a fresh cell. -/
def Heap.alloc (h : Heap) (o : PyObj) : Heap × Nat :=
  ({ cells := h.cells ++ [(h.next, o)], next := h.next + 1 }, h.next)

/-- `d.get(k)` on a dict cell. -/
def dictGet (h : Heap) (a : Nat) (k : String) : Option PyVal :=
  match h.get a with
  | some (.pDict es) => es.lookup k
  | _ => none

/-- `d[k] = v` on a dict cell: replace in place, or append a new key. -/
def dictSet (h : Heap) (a : Nat) (k : String) (v : PyVal) : Heap :=
  match h.get a with
  | some (.pDict es) =>
    h.set a (.pDict
      (if (es.lookup k).isSome then es.map (fun p => if p.1 = k then (k, v) else p)
       else es ++ [(k, v)]))
  | _ => h

/-- Truthiness of a dict value as used on `tc.get('id')`:
absent / `None` / empty string are falsy. -/
def truthyStrVal : Option PyVal → Bool
  | some (.vStr s) => !s.isEmpty
  | _ => false

/-- The string payload of a value (empty for non-strings). -/
def strOfVal : Option PyVal → String
  | some (.vStr s) => s
  | _ => ""

/-- One iteration of the fragment loop of the converter, on the heap:
`converted_tc = tc.copy()` allocates a fresh dict sharing the old
values; a truthy id is translated and the map index assigned; otherwise
a non-empty map assigns `max(map.values())`. -/
def convertFragHeap (h : Heap) (tcRef : PyVal) (m : IdxMap) : Heap × PyVal × IdxMap :=
  match tcRef with
  | .vRef ta =>
    match h.get ta with
    | some (.pDict es) =>
      let r := h.alloc (.pDict es)
      let h := r.1
      let na := r.2
      let idVal := es.lookup "id"
      if truthyStrVal idVal then
        let original_id := strOfVal idVal
        let converted_id := convert_tool_call_id original_id
        let h := dictSet h na "id" (.vStr converted_id)
        let m' := if (m.lookup original_id).isSome then m else m ++ [(original_id, m.length)]
        let h := dictSet h na "index" (.vNat ((m'.lookup original_id).getD 0))
        (h, .vRef na, m')
      else if m.isEmpty then (h, .vRef na, m)
      else (dictSet h na "index" (.vNat (maxValues m)), .vRef na, m)
    | _ => (h, tcRef, m)
  | _ => (h, tcRef, m)

/-- The fragment loop over a list of fragment references. -/
def convertFragsHeap (h : Heap) : List PyVal → IdxMap → Heap × List PyVal × IdxMap
  | [], m => (h, [], m)
  | tc :: tcs, m =>
    let r1 := convertFragHeap h tc m
    let r2 := convertFragsHeap r1.1 tcs r1.2.2
    (r2.1, r1.2.1 :: r2.2.1, r2.2.2)

/-- The embedded `convert_sse_chunk_to_openai_format` on the heap model,
for well-shaped chunk dicts (`choices` a non-empty list of dicts whose
`delta` holds a `tool_calls` list): chunks without choices or without
tool calls are returned unchanged (the same object); otherwise the
fragment list is converted into a fresh list, the top-level dict is
shallow-copied, and `converted_chunk['choices'][0]['delta']['tool_calls']`
is assigned — which, through the shared references, writes into the
input chunk's own delta dict. -/
def convertChunkHeap (h : Heap) (chunkRef : PyVal) (m : IdxMap) : Heap × PyVal × IdxMap :=
  match chunkRef with
  | .vRef ca =>
    match dictGet h ca "choices" with
    | some (.vRef la) =>
      match h.get la with
      | some (.pList (choice0 :: _)) =>
        match choice0 with
        | .vRef choiceAddr =>
          match dictGet h choiceAddr "delta" with
          | some (.vRef deltaAddr) =>
            match dictGet h deltaAddr "tool_calls" with
            | some (.vRef tlAddr) =>
              match h.get tlAddr with
              | some (.pList []) => (h, chunkRef, m)
              | some (.pList tcs) =>
                let r1 := convertFragsHeap h tcs m
                let h := r1.1
                let r2 := h.alloc (.pList r1.2.1)
                let h := r2.1
                let newListAddr := r2.2
                let chunkEntries :=
                  match h.get ca with
                  | some (.pDict es) => es
                  | _ => []
                let r3 := h.alloc (.pDict chunkEntries)
                let h := r3.1
                let newChunkAddr := r3.2
                let h :=
                  match dictGet h newChunkAddr "choices" with
                  | some (.vRef la') =>
                    match h.get la' with
                    | some (.pList (.vRef choiceAddr' :: _)) =>
                      match dictGet h choiceAddr' "delta" with
                      | some (.vRef deltaAddr') =>
                        dictSet h deltaAddr' "tool_calls" (.vRef newListAddr)
                      | _ => h
                    | _ => h
                  | _ => h
                (h, .vRef newChunkAddr, r1.2.2)
              | _ => (h, chunkRef, m)
            | _ => (h, chunkRef, m)
          | _ => (h, chunkRef, m)
        | _ => (h, chunkRef, m)
      | _ => (h, chunkRef, m)
    | _ => (h, chunkRef, m)
  | _ => (h, chunkRef, m)

/-! ### Helper observations used by the theorems -/

/-- The `index` of the first tool-call fragment of a chunk's first
choice. -/
def fragIndexOfChunk (c : Chunk) : Option Nat :=
  match c.choices with
  | [] => none
  | ch :: _ =>
    match (ch.delta.getD {}).tool_calls with
    | [] => none
    | tc :: _ => tc.index

/-- The truthy vendor ids carried by a fragment list. -/
def fragIds (tcs : List ToolCallFragment) : List String :=
  tcs.filterMap fun tc => if isTruthy tc.id then some (tc.id.getD "") else none

/-- The truthy vendor ids carried by a chunk (first choice). -/
def chunkIds (c : Chunk) : List String :=
  match c.choices with
  | [] => []
  | ch :: _ => fragIds (ch.delta.getD {}).tool_calls

/-- All truthy vendor ids of a stream. -/
def streamIds (chunks : List Chunk) : List String := chunks.flatMap chunkIds

/-- The index map with every key translated by `convert_tool_call_id`
(the map a second conversion pass builds). -/
def mapKeysConv (m : IdxMap) : IdxMap :=
  m.map fun p => (convert_tool_call_id p.1, p.2)

/-- `convert_tool_call_id` is injective on a set of ids (no translated
collisions, e.g. no stream carrying both `tooluse_x` and `call_x`). -/
def convIdInjOn (S : List String) : Prop :=
  ∀ i ∈ S, ∀ j ∈ S, convert_tool_call_id i = convert_tool_call_id j → i = j

/-- The index-map allocation invariant: positions are handed out as
`0, 1, 2, ...` in insertion order, so the values are exactly
`List.range m.length`. -/
def allocInv (m : IdxMap) : Prop := m.map Prod.snd = List.range m.length

/-- The first truthy (present and non-empty) value of a list of
optional strings. -/
def firstTruthyStr : List (Option String) → Option String
  | [] => none
  | o :: rest => if isTruthy o then o else firstTruthyStr rest

/-- The last truthy value of a list of optional strings. -/
def lastTruthyStr (l : List (Option String)) : Option String :=
  firstTruthyStr l.reverse

/-- A vendor chunk opening a tool call: the only fragment carries the
id, the type and the function name (and the vendor's constant index
`0`). -/
def idChunk (i nm : String) : Chunk :=
  { choices := [{ delta := some { tool_calls :=
      [{ id := some i, type := some "function", index := some 0,
         function := some { name := some nm } }] } }] }

/-- A vendor continuation chunk: the only fragment carries just an
argument-text piece (and the constant index `0`), no id. -/
def argChunk (s : String) : Chunk :=
  { choices := [{ delta := some { tool_calls :=
      [{ index := some 0, function := some { arguments := some s } }] } }] }

/-- A plain text-delta chunk. -/
def contentChunk (s : String) : Chunk :=
  { choices := [{ delta := some { content := some s } }] }

/-- The input does not start with a digit. -/
def noDigitHead : Chars → Prop
  | [] => True
  | c :: _ => c.isDigit = false

/-- The input cannot extend a preceding number token: it does not start
with a digit, `.`, `e` or `E`. -/
def numDelim : Chars → Prop
  | [] => True
  | c :: _ => c.isDigit = false ∧ c ≠ '.' ∧ c ≠ 'e' ∧ c ≠ 'E'

/-- The remainders a serialized value is followed by inside a larger
serialized document: nothing, or a separator or closer. -/
def TermOk (rest : Chars) : Prop :=
  rest = [] ∨ ∃ c r', rest = c :: r' ∧ (c = ',' ∨ c = '}' ∨ c = ']')

/-- A concrete well-shaped decoded chunk on the heap: a chunk dict (cell 0)
whose `choices` list (1) holds one choice dict (2) whose `delta` dict (3)
holds a `tool_calls` list (4) with one fragment dict (5) carrying the id
`s`. -/
def c9Heap (s : String) : Heap :=
  { cells :=
      [(0, .pDict [("choices", .vRef 1)]),
       (1, .pList [.vRef 2]),
       (2, .pDict [("delta", .vRef 3)]),
       (3, .pDict [("tool_calls", .vRef 4)]),
       (4, .pList [.vRef 5]),
       (5, .pDict [("id", .vStr s), ("type", .vStr "function")])],
    next := 6 }

/-! ## Proofs

First the re-lexing lemmas for the number grammar: a token the lexer
produced is lexed back identically when followed by a non-extending
remainder.  They underpin the `dumps`/`loads` round trip that Argument
Repair's validity theorem needs. -/

theorem noDigitHead_cons (c : Char) (l : Chars) : noDigitHead (c :: l) ↔ c.isDigit = false :=
  Iff.rfl

theorem noDigitHead_nil : noDigitHead [] := trivial

theorem takeDigits_fst_digits (cs : Chars) : ∀ c ∈ (takeDigits cs).1, c.isDigit = true := by
  induction cs with
  | nil => simp [takeDigits]
  | cons c cs ih =>
    by_cases h : c.isDigit
    · simp only [takeDigits, h, if_true]
      intro a ha
      rcases List.mem_cons.mp ha with rfl | ha'
      · exact h
      · exact ih a ha'
    · simp [takeDigits, h]

theorem takeDigits_exact (ds : Chars) : ∀ (r : Chars), (∀ c ∈ ds, c.isDigit = true) →
    noDigitHead r → takeDigits (ds ++ r) = (ds, r) := by
  induction ds with
  | nil =>
    intro r _ hr
    cases r with
    | nil => rfl
    | cons c r' =>
      simp only [noDigitHead] at hr
      simp [takeDigits, hr]
  | cons d ds ih =>
    intro r hds hr
    have hd : d.isDigit = true := hds d (List.mem_cons_self d ds)
    have := ih r (fun c hc => hds c (List.mem_cons_of_mem d hc)) hr
    simp [takeDigits, hd, this]

theorem digit_ne_specials {c : Char} (h : c.isDigit = true) :
    c ≠ '-' ∧ c ≠ '+' ∧ c ≠ '.' ∧ c ≠ 'e' ∧ c ≠ 'E' ∧ c ≠ '{' ∧ c ≠ '[' ∧ c ≠ '"' := by
  refine ⟨?_, ?_, ?_, ?_, ?_, ?_, ?_, ?_⟩ <;> · rintro rfl; exact absurd h (by decide)

theorem lexInt_relex (cs ip r : Chars) (h : lexInt cs = some (ip, r)) :
    ∀ X, noDigitHead X → lexInt (ip ++ X) = some (ip, X) := by
  intro X hX
  cases cs with
  | nil => simp [lexInt] at h
  | cons c cs' =>
    by_cases h0 : c = '0'
    · subst h0
      simp only [lexInt, if_true, Option.some.injEq, Prod.mk.injEq, reduceIte] at h
      rw [← h.1]
      simp [lexInt]
    · by_cases hd : c.isDigit
      · simp only [lexInt, if_neg h0, if_pos hd, Option.some.injEq, Prod.mk.injEq] at h
        rw [← h.1]
        simp only [lexInt, List.cons_append, if_neg h0, if_pos hd]
        rw [takeDigits_exact _ X (takeDigits_fst_digits cs') hX]
      · simp [lexInt, h0, hd] at h

theorem lexInt_shape (cs ip r : Chars) (h : lexInt cs = some (ip, r)) :
    ∃ d ds, ip = d :: ds ∧ d.isDigit = true ∧ ∀ c ∈ ds, c.isDigit = true := by
  cases cs with
  | nil => simp [lexInt] at h
  | cons c cs' =>
    by_cases h0 : c = '0'
    · subst h0
      simp only [lexInt, if_true, Option.some.injEq, Prod.mk.injEq, reduceIte] at h
      exact ⟨'0', [], h.1.symm, by decide, by simp⟩
    · by_cases hd : c.isDigit
      · simp only [lexInt, if_neg h0, if_pos hd, Option.some.injEq, Prod.mk.injEq] at h
        exact ⟨c, (takeDigits cs').1, h.1.symm, hd, takeDigits_fst_digits cs'⟩
      · simp [lexInt, h0, hd] at h

theorem lexFrac_eq_nil (X : Chars) (hX : ∀ d X', X = d :: X' → d ≠ '.') :
    lexFrac X = ([], X) := by
  cases X with
  | nil => rfl
  | cons d X' => simp [lexFrac, hX d X' rfl]

theorem lexFrac_dot (ds X : Chars) (hne : ds ≠ []) (hds : ∀ c ∈ ds, c.isDigit = true)
    (hX : noDigitHead X) : lexFrac (('.' :: ds) ++ X) = ('.' :: ds, X) := by
  simp only [List.cons_append, lexFrac, if_pos rfl]
  rw [takeDigits_exact ds X hds hX]
  simp [hne]

theorem lexFrac_shape (cs : Chars) : (lexFrac cs).1 = [] ∨
    ∃ ds, (lexFrac cs).1 = '.' :: ds ∧ ds ≠ [] ∧ ∀ c ∈ ds, c.isDigit = true := by
  cases cs with
  | nil => exact Or.inl rfl
  | cons c cs' =>
    by_cases hc : c = '.'
    · subst hc
      by_cases h : (takeDigits cs').1 = []
      · simp [lexFrac, h]
      · right
        exact ⟨(takeDigits cs').1, by simp [lexFrac, h], h, takeDigits_fst_digits cs'⟩
    · simp [lexFrac, hc]

theorem lexExp_eq_nil (X : Chars) (hX : ∀ d X', X = d :: X' → d ≠ 'e' ∧ d ≠ 'E') :
    lexExp X = ([], X) := by
  cases X with
  | nil => rfl
  | cons d X' =>
    have := hX d X' rfl
    simp [lexExp, this.1, this.2]

theorem lexExp_exact (e : Char) (sgn ds X : Chars) (he : e = 'e' ∨ e = 'E')
    (hsgn : sgn = [] ∨ sgn = ['+'] ∨ sgn = ['-']) (hne : ds ≠ [])
    (hds : ∀ c ∈ ds, c.isDigit = true) (hX : noDigitHead X) :
    lexExp ((e :: sgn ++ ds) ++ X) = (e :: sgn ++ ds, X) := by
  obtain ⟨d, ds', rfl⟩ : ∃ d ds', ds = d :: ds' := by
    cases ds with
    | nil => exact absurd rfl hne
    | cons d ds' => exact ⟨d, ds', rfl⟩
  have hd : d.isDigit = true := hds d (List.mem_cons_self d ds')
  have htd : takeDigits (d :: (ds' ++ X)) = (d :: ds', X) := by
    have := takeDigits_exact (d :: ds') X hds hX
    simpa using this
  rcases hsgn with rfl | rfl | rfl
  · have hno : ¬(d = '+' ∨ d = '-') := by
      rintro (rfl | rfl) <;> exact absurd hd (by decide)
    simp only [List.nil_append, List.cons_append, lexExp, if_pos he, if_neg hno, htd]
    simp
  · have hyes : ('+' = '+' ∨ '+' = '-') := Or.inl rfl
    simp only [List.cons_append, List.singleton_append, lexExp, if_pos he, if_pos hyes]
    simp [htd]
  · have hyes : ('-' = '+' ∨ '-' = '-') := Or.inr rfl
    simp only [List.cons_append, List.singleton_append, lexExp, if_pos he, if_pos hyes]
    simp [htd]

theorem lexExp_shape (cs : Chars) : (lexExp cs).1 = [] ∨
    ∃ e sgn ds, (lexExp cs).1 = e :: sgn ++ ds ∧ (e = 'e' ∨ e = 'E') ∧
      (sgn = [] ∨ sgn = ['+'] ∨ sgn = ['-']) ∧ ds ≠ [] ∧ ∀ c ∈ ds, c.isDigit = true := by
  cases cs with
  | nil => exact Or.inl rfl
  | cons e cs' =>
    by_cases he : e = 'e' ∨ e = 'E'
    · cases cs' with
      | nil => simp [lexExp, he]
      | cons c r =>
        by_cases hpm : c = '+' ∨ c = '-'
        · by_cases h0 : (takeDigits r).1 = []
          · simp [lexExp, he, hpm, h0]
          · right
            refine ⟨e, [c], (takeDigits r).1, ?_, he, ?_, h0, takeDigits_fst_digits r⟩
            · simp [lexExp, he, hpm, h0]
            · rcases hpm with rfl | rfl
              · exact Or.inr (Or.inl rfl)
              · exact Or.inr (Or.inr rfl)
        · by_cases h0 : (takeDigits (c :: r)).1 = []
          · simp [lexExp, he, hpm, h0]
          · right
            exact ⟨e, [], (takeDigits (c :: r)).1, by simp [lexExp, he, hpm, h0], he,
              Or.inl rfl, h0, takeDigits_fst_digits (c :: r)⟩
    · simp [lexExp, he]

theorem lexNumCore_relex (cs t r : Chars) (h : lexNumCore cs = some (t, r)) :
    ∀ X, numDelim X → lexNumCore (t ++ X) = some (t, X) := by
  intro X hX
  rcases hInt : lexInt cs with _ | ⟨ip, cs2⟩
  · simp [lexNumCore, hInt] at h
  · simp only [lexNumCore, hInt, Option.some.injEq, Prod.mk.injEq] at h
    obtain ⟨ht, _⟩ := h
    set fp := (lexFrac cs2).1 with hfp
    set cs3 := (lexFrac cs2).2 with hcs3
    set ep := (lexExp cs3).1 with hep
    have hXnd : noDigitHead X := by
      cases X with
      | nil => trivial
      | cons x X' => exact hX.1
    have hXdelims : ∀ x X', X = x :: X' → x.isDigit = false ∧ x ≠ '.' ∧ x ≠ 'e' ∧ x ≠ 'E' := by
      intro x X' hxe
      subst hxe
      exact hX
    have hExp : lexExp (ep ++ X) = (ep, X) := by
      rcases lexExp_shape cs3 with hsh | ⟨e, sgn, ds, hsh, he, hsgn, hne, hds⟩
      · rw [← hep] at hsh
        rw [hsh, List.nil_append]
        refine lexExp_eq_nil X ?_
        intro d X' hxe
        exact ⟨(hXdelims d X' hxe).2.2.1, (hXdelims d X' hxe).2.2.2⟩
      · rw [← hep] at hsh
        rw [hsh]
        exact lexExp_exact e sgn ds X he hsgn hne hds hXnd
    have hEpNd : noDigitHead (ep ++ X) := by
      rcases lexExp_shape cs3 with hsh | ⟨e, sgn, ds, hsh, he, hsgn, hne, hds⟩
      · rw [← hep] at hsh
        rw [hsh, List.nil_append]
        exact hXnd
      · rw [← hep] at hsh
        rw [hsh]
        exact (noDigitHead_cons e ((sgn ++ ds) ++ X)).mpr
          (by rcases he with rfl | rfl <;> decide)
    have hEpDot : ∀ d Y, ep ++ X = d :: Y → d ≠ '.' := by
      rcases lexExp_shape cs3 with hsh | ⟨e, sgn, ds, hsh, he, hsgn, hne, hds⟩
      · rw [← hep] at hsh
        rw [hsh, List.nil_append]
        intro d Y hxe
        exact (hXdelims d Y hxe).2.1
      · rw [← hep] at hsh
        rw [hsh]
        intro d Y hxe
        have hed : e = d := by
          have := congrArg List.head? hxe
          simpa using this
        rw [← hed]
        rcases he with rfl | rfl <;> decide
    have hFrac : lexFrac (fp ++ (ep ++ X)) = (fp, ep ++ X) := by
      rcases lexFrac_shape cs2 with hsh | ⟨ds, hsh, hne, hds⟩
      · rw [← hfp] at hsh
        rw [hsh, List.nil_append]
        exact lexFrac_eq_nil (ep ++ X) hEpDot
      · rw [← hfp] at hsh
        rw [hsh]
        exact lexFrac_dot ds (ep ++ X) hne hds hEpNd
    have hFpNd : noDigitHead (fp ++ (ep ++ X)) := by
      rcases lexFrac_shape cs2 with hsh | ⟨ds, hsh, hne, hds⟩
      · rw [← hfp] at hsh
        rw [hsh, List.nil_append]
        exact hEpNd
      · rw [← hfp] at hsh
        rw [hsh]
        exact (noDigitHead_cons '.' (ds ++ (ep ++ X))).mpr (by decide)
    have hIntRe : lexInt (ip ++ (fp ++ (ep ++ X))) = some (ip, fp ++ (ep ++ X)) :=
      lexInt_relex cs ip cs2 hInt (fp ++ (ep ++ X)) hFpNd
    have hts : t ++ X = ip ++ (fp ++ (ep ++ X)) := by
      rw [← ht]
      simp [List.append_assoc]
    rw [hts]
    simp only [lexNumCore, hIntRe, hFrac, hExp]
    rw [← ht]

theorem lexNumCore_head (cs t r : Chars) (h : lexNumCore cs = some (t, r)) :
    ∃ d ds, t = d :: ds ∧ d.isDigit = true := by
  rcases hInt : lexInt cs with _ | ⟨ip, cs2⟩
  · simp [lexNumCore, hInt] at h
  · simp only [lexNumCore, hInt, Option.some.injEq, Prod.mk.injEq] at h
    obtain ⟨d, ds, hip, hd, _⟩ := lexInt_shape cs ip cs2 hInt
    refine ⟨d, ds ++ (lexFrac cs2).1 ++ (lexExp (lexFrac cs2).2).1, ?_, hd⟩
    rw [← h.1, hip]
    simp

theorem lexNum_relex (cs t r : Chars) (h : lexNum cs = some (t, r)) :
    ∀ X, numDelim X → lexNum (t ++ X) = some (t, X) := by
  intro X hX
  cases cs with
  | nil => simp [lexNum] at h
  | cons c r0 =>
    by_cases hc : c = '-'
    · subst hc
      rcases hCore : lexNumCore r0 with _ | ⟨t0, r2⟩
      · simp [lexNum, hCore] at h
      · simp only [lexNum, if_true, hCore, Option.some.injEq, Prod.mk.injEq, reduceIte] at h
        rw [← h.1]
        have := lexNumCore_relex r0 t0 r2 hCore X hX
        simp [lexNum, this]
    · simp only [lexNum, if_neg hc] at h
      have hre := lexNumCore_relex (c :: r0) t r h X hX
      obtain ⟨d, ds, ht, hd⟩ := lexNumCore_head (c :: r0) t r h
      have hdm : d ≠ '-' := (digit_ne_specials hd).1
      rw [ht]
      simp only [List.cons_append, lexNum, if_neg hdm]
      rw [← List.cons_append, ← ht]
      exact hre

theorem lexNum_head (cs t r : Chars) (h : lexNum cs = some (t, r)) :
    ∃ d ds, t = d :: ds ∧ (d = '-' ∨ d.isDigit = true) := by
  cases cs with
  | nil => simp [lexNum] at h
  | cons c r0 =>
    by_cases hc : c = '-'
    · subst hc
      rcases hCore : lexNumCore r0 with _ | ⟨t0, r2⟩
      · simp [lexNum, hCore] at h
      · simp only [lexNum, if_true, hCore, Option.some.injEq, Prod.mk.injEq, reduceIte] at h
        exact ⟨'-', t0, h.1.symm, Or.inl rfl⟩
    · simp only [lexNum, if_neg hc] at h
      obtain ⟨d, ds, ht, hd⟩ := lexNumCore_head (c :: r0) t r h
      exact ⟨d, ds, ht, Or.inr hd⟩

theorem hexVal_hexDigit {k : Nat} (h : k < 16) : hexVal? (hexDigit k) = some k := by
  interval_cases k <;> decide

/-- The string-body lexer accepts the `escChar` encoding of any
character sequence, consuming exactly the encoding and the closing
quote. -/
theorem lexStr_enc (cs : List Char) : ∀ (acc : List Char) (rest : Chars),
    ∃ w, lexStr (cs.flatMap escChar ++ '"' :: rest) acc = some (w, rest) := by
  induction cs with
  | nil =>
    intro acc rest
    refine ⟨String.mk acc.reverse, ?_⟩
    rw [lexStr.eq_def]
    simp
  | cons c cs ih =>
    intro acc rest
    by_cases h1 : c = '"'
    · subst h1
      obtain ⟨w, hw⟩ := ih ('"' :: acc) rest
      refine ⟨w, ?_⟩
      have hL : (('"' : Char) :: cs).flatMap escChar ++ '"' :: rest =
          '\\' :: '"' :: (cs.flatMap escChar ++ '"' :: rest) := by
        simp [escChar]
      rw [hL, lexStr.eq_def]
      simpa using hw
    · by_cases h2 : c = '\\'
      · subst h2
        obtain ⟨w, hw⟩ := ih ('\\' :: acc) rest
        refine ⟨w, ?_⟩
        have hL : (('\\' : Char) :: cs).flatMap escChar ++ '"' :: rest =
            '\\' :: '\\' :: (cs.flatMap escChar ++ '"' :: rest) := by
          simp [escChar]
        rw [hL, lexStr.eq_def]
        simpa using hw
      · by_cases h3 : c = '\x08'
        · subst h3
          obtain ⟨w, hw⟩ := ih ('\x08' :: acc) rest
          refine ⟨w, ?_⟩
          have hL : (('\x08' : Char) :: cs).flatMap escChar ++ '"' :: rest =
              '\\' :: 'b' :: (cs.flatMap escChar ++ '"' :: rest) := by
            simp [escChar]
          rw [hL, lexStr.eq_def]
          simpa using hw
        · by_cases h4 : c = '\x0c'
          · subst h4
            obtain ⟨w, hw⟩ := ih ('\x0c' :: acc) rest
            refine ⟨w, ?_⟩
            have hL : (('\x0c' : Char) :: cs).flatMap escChar ++ '"' :: rest =
                '\\' :: 'f' :: (cs.flatMap escChar ++ '"' :: rest) := by
              simp [escChar]
            rw [hL, lexStr.eq_def]
            simpa using hw
          · by_cases h5 : c = '\n'
            · subst h5
              obtain ⟨w, hw⟩ := ih ('\n' :: acc) rest
              refine ⟨w, ?_⟩
              have hL : (('\n' : Char) :: cs).flatMap escChar ++ '"' :: rest =
                  '\\' :: 'n' :: (cs.flatMap escChar ++ '"' :: rest) := by
                simp [escChar]
              rw [hL, lexStr.eq_def]
              simpa using hw
            · by_cases h6 : c = '\r'
              · subst h6
                obtain ⟨w, hw⟩ := ih ('\r' :: acc) rest
                refine ⟨w, ?_⟩
                have hL : (('\r' : Char) :: cs).flatMap escChar ++ '"' :: rest =
                    '\\' :: 'r' :: (cs.flatMap escChar ++ '"' :: rest) := by
                  simp [escChar]
                rw [hL, lexStr.eq_def]
                simpa using hw
              · by_cases h7 : c = '\t'
                · subst h7
                  obtain ⟨w, hw⟩ := ih ('\t' :: acc) rest
                  refine ⟨w, ?_⟩
                  have hL : (('\t' : Char) :: cs).flatMap escChar ++ '"' :: rest =
                      '\\' :: 't' :: (cs.flatMap escChar ++ '"' :: rest) := by
                    simp [escChar]
                  rw [hL, lexStr.eq_def]
                  simpa using hw
                · by_cases h8 : c.toNat < 0x20
                  · have hhi : c.toNat / 16 < 16 := by omega
                    have hlo : c.toNat % 16 < 16 := Nat.mod_lt _ (by norm_num)
                    have e1 := hexVal_hexDigit hhi
                    have e2 := hexVal_hexDigit hlo
                    obtain ⟨w, hw⟩ := ih (c :: acc) rest
                    refine ⟨w, ?_⟩
                    have hL : (c :: cs).flatMap escChar ++ '"' :: rest =
                        '\\' :: 'u' :: '0' :: '0' :: hexDigit (c.toNat / 16) ::
                          hexDigit (c.toNat % 16) ::
                          (cs.flatMap escChar ++ '"' :: rest) := by
                      simp [escChar, h1, h2, h3, h4, h5, h6, h7, h8]
                    rw [hL, lexStr.eq_def]
                    have harith : c.toNat / 16 * 16 + c.toNat % 16 = c.toNat := by omega
                    have e0 : hexVal? '0' = some 0 := by decide
                    simpa [e0, e1, e2, harith, Char.ofNat_toNat] using hw
                  · obtain ⟨w, hw⟩ := ih (c :: acc) rest
                    refine ⟨w, ?_⟩
                    have hL : (c :: cs).flatMap escChar ++ '"' :: rest =
                        c :: (cs.flatMap escChar ++ '"' :: rest) := by
                      simp [escChar, h1, h2, h3, h4, h5, h6, h7, h8]
                    rw [hL, lexStr.eq_def]
                    simpa [h1, h2, h8] using hw

theorem wfB_obj (kvs : List (String × Json)) : wfB (.obj kvs) = wfM kvs := rfl

theorem wfB_arr (xs : List Json) : wfB (.arr xs) = wfL xs := rfl

theorem wfB_num (s : String) :
    wfB (.num s) = (s == "NaN" || s == "Infinity" || s == "-Infinity" || numLex s) := rfl

theorem wfL_cons (x : Json) (xs : List Json) : wfL (x :: xs) = (wfB x && wfL xs) := rfl

theorem wfM_cons (kv : String × Json) (kvs : List (String × Json)) :
    wfM (kv :: kvs) = (wfB kv.2 && wfM kvs) := rfl

/-- A token produced by `lexNum` is a complete number token. -/
theorem numLex_of_lexNum (cs t r : Chars) (h : lexNum cs = some (t, r)) :
    numLex (String.mk t) = true := by
  have hre := lexNum_relex cs t r h [] trivial
  rw [List.append_nil] at hre
  simp [numLex, hre]

theorem ws_false_of_digit {c : Char} (h : c.isDigit = true) : isJsonWs c = false := by
  cases hws : isJsonWs c
  · rfl
  · simp only [isJsonWs, Bool.or_eq_true, decide_eq_true_eq] at hws
    rcases hws with ((rfl | rfl) | rfl) | rfl <;> exact absurd h (by decide)

theorem digit_ne_closers {c : Char} (h : c.isDigit = true) :
    c ≠ '}' ∧ c ≠ ']' ∧ c ≠ ',' := by
  refine ⟨?_, ?_, ?_⟩ <;> · rintro rfl; exact absurd h (by decide)

theorem skipWs_cons_of {c : Char} (l : Chars) (h : isJsonWs c = false) :
    skipWs (c :: l) = c :: l := by
  rw [show skipWs (c :: l) = if isJsonWs c then skipWs l else c :: l from rfl, h]
  simp

theorem skipWs_space (l : Chars) : skipWs (' ' :: l) = skipWs l := by
  rw [show skipWs (' ' :: l) = if isJsonWs ' ' then skipWs l else ' ' :: l from rfl]
  simp [isJsonWs]

theorem lexNum_of_numLex {s : String} (h : numLex s = true) :
    lexNum s.data = some (s.data, []) := by
  rcases hn : lexNum s.data with _ | ⟨t, r⟩ <;> simp [numLex, hn] at h
  rw [h.1, h.2]

theorem numDelim_of_TermOk {rest : Chars} (h : TermOk rest) : numDelim rest := by
  rcases h with rfl | ⟨c, r', rfl, hc⟩
  · trivial
  · rcases hc with rfl | rfl | rfl <;> exact ⟨by decide, by decide, by decide, by decide⟩

/-- The serialization of a well-formed value starts with a character
that is not whitespace, not a closer and not a separator. -/
theorem dumpsVal_head (v : Json) (hwf : wfB v = true) :
    ∃ c t, dumpsVal v = c :: t ∧ isJsonWs c = false ∧ c ≠ '}' ∧ c ≠ ']' ∧ c ≠ ',' := by
  cases v with
  | null => exact ⟨'n', _, rfl, by decide, by decide, by decide, by decide⟩
  | bool b => cases b
              · exact ⟨'f', _, rfl, by decide, by decide, by decide, by decide⟩
              · exact ⟨'t', _, rfl, by decide, by decide, by decide, by decide⟩
  | str s => exact ⟨'"', _, rfl, by decide, by decide, by decide, by decide⟩
  | arr xs =>
    cases xs with
    | nil => exact ⟨'[', _, rfl, by decide, by decide, by decide, by decide⟩
    | cons x xs => exact ⟨'[', _, rfl, by decide, by decide, by decide, by decide⟩
  | obj kvs =>
    cases kvs with
    | nil => exact ⟨'{', _, rfl, by decide, by decide, by decide, by decide⟩
    | cons kv kvs => exact ⟨'{', _, rfl, by decide, by decide, by decide, by decide⟩
  | num s =>
    rw [wfB_num] at hwf
    simp only [Bool.or_eq_true, beq_iff_eq] at hwf
    rcases hwf with ((rfl | rfl) | rfl) | hlex
    · exact ⟨'N', _, rfl, by decide, by decide, by decide, by decide⟩
    · exact ⟨'I', _, rfl, by decide, by decide, by decide, by decide⟩
    · exact ⟨'-', _, rfl, by decide, by decide, by decide, by decide⟩
    · have hn := lexNum_of_numLex hlex
      obtain ⟨d, ds, hds, hd⟩ := lexNum_head _ _ _ hn
      refine ⟨d, ds, hds, ?_, ?_, ?_, ?_⟩
      · rcases hd with rfl | hd
        · decide
        · exact ws_false_of_digit hd
      · rcases hd with rfl | hd
        · decide
        · exact (digit_ne_closers hd).1
      · rcases hd with rfl | hd
        · decide
        · exact (digit_ne_closers hd).2.1
      · rcases hd with rfl | hd
        · decide
        · exact (digit_ne_closers hd).2.2

/-- Every value the parser returns is well-formed. -/
theorem parse_wf (fuel : Nat) :
    (∀ cs v r, parseVal fuel cs = some (v, r) → wfB v = true) ∧
    (∀ cs kvs r, parseMembers fuel cs = some (kvs, r) → wfM kvs = true) ∧
    (∀ cs xs r, parseItems fuel cs = some (xs, r) → wfL xs = true) := by
  induction fuel with
  | zero =>
    refine ⟨?_, ?_, ?_⟩ <;> intro cs a r h <;>
      · rw [show (0 : Nat) = 0 from rfl] at h
        first
        | (rw [parseVal.eq_1] at h; simp at h)
        | (rw [parseMembers.eq_1] at h; simp at h)
        | (rw [parseItems.eq_1] at h; simp at h)
  | succ fuel ih =>
    obtain ⟨ihV, ihM, ihI⟩ := ih
    refine ⟨?_, ?_, ?_⟩
    · intro cs v r h
      cases cs with
      | nil => rw [parseVal.eq_2] at h; simp at h
      | cons c r0 =>
        rw [parseVal.eq_3] at h
        by_cases hc1 : c = '{'
        · rw [if_pos hc1] at h
          rcases hsw : skipWs r0 with _ | ⟨d, r1⟩ <;> rw [hsw] at h
          · simp at h
          · simp only [Option.some.injEq] at h
            by_cases hd : d = '}'
            · rw [if_pos hd] at h
              simp only [Option.some.injEq, Prod.mk.injEq] at h
              rw [← h.1]
              decide
            · rw [if_neg hd] at h
              rcases hm : parseMembers fuel (d :: r1) with _ | ⟨kvs, r2⟩ <;> rw [hm] at h
              · simp at h
              · simp only [Option.some.injEq, Prod.mk.injEq] at h
                rw [← h.1, wfB_obj]
                exact ihM _ _ _ hm
        · rw [if_neg hc1] at h
          by_cases hc2 : c = '['
          · rw [if_pos hc2] at h
            rcases hsw : skipWs r0 with _ | ⟨d, r1⟩ <;> rw [hsw] at h
            · simp at h
            · simp only [Option.some.injEq] at h
              by_cases hd : d = ']'
              · rw [if_pos hd] at h
                simp only [Option.some.injEq, Prod.mk.injEq] at h
                rw [← h.1]
                decide
              · rw [if_neg hd] at h
                rcases hm : parseItems fuel (d :: r1) with _ | ⟨xs, r2⟩ <;> rw [hm] at h
                · simp at h
                · simp only [Option.some.injEq, Prod.mk.injEq] at h
                  rw [← h.1, wfB_arr]
                  exact ihI _ _ _ hm
          · rw [if_neg hc2] at h
            by_cases hc3 : c = '"'
            · rw [if_pos hc3] at h
              rcases hs : lexStr r0 [] with _ | ⟨s, r1⟩ <;> rw [hs] at h
              · simp at h
              · simp only [Option.some.injEq, Prod.mk.injEq] at h
                rw [← h.1]
                rfl
            · rw [if_neg hc3] at h
              rcases hn : lexNum (c :: r0) with _ | ⟨t, r1⟩ <;> rw [hn] at h
              · rcases g1 : dropLit ['n', 'u', 'l', 'l'] (c :: r0) with _ | r1' <;> rw [g1] at h
                · rcases g2 : dropLit ['t', 'r', 'u', 'e'] (c :: r0) with _ | r1' <;> rw [g2] at h
                  · rcases g3 : dropLit ['f', 'a', 'l', 's', 'e'] (c :: r0) with _ | r1' <;>
                      rw [g3] at h
                    · rcases g4 : dropLit ['N', 'a', 'N'] (c :: r0) with _ | r1' <;> rw [g4] at h
                      · rcases g5 : dropLit ['I', 'n', 'f', 'i', 'n', 'i', 't', 'y'] (c :: r0)
                          with _ | r1' <;> rw [g5] at h
                        · rcases g6 : dropLit ['-', 'I', 'n', 'f', 'i', 'n', 'i', 't', 'y']
                            (c :: r0) with _ | r1' <;> rw [g6] at h
                          · simp at h
                          · simp only [Option.some.injEq, Prod.mk.injEq] at h
                            rw [← h.1]
                            decide
                        · simp only [Option.some.injEq, Prod.mk.injEq] at h
                          rw [← h.1]
                          decide
                      · simp only [Option.some.injEq, Prod.mk.injEq] at h
                        rw [← h.1]
                        decide
                    · simp only [Option.some.injEq, Prod.mk.injEq] at h
                      rw [← h.1]
                      rfl
                  · simp only [Option.some.injEq, Prod.mk.injEq] at h
                    rw [← h.1]
                    rfl
                · simp only [Option.some.injEq, Prod.mk.injEq] at h
                  rw [← h.1]
                  rfl
              · simp only [Option.some.injEq, Prod.mk.injEq] at h
                rw [← h.1, wfB_num]
                rw [numLex_of_lexNum _ _ _ hn]
                simp
    · intro cs kvs r h
      cases cs with
      | nil => rw [parseMembers.eq_2] at h; simp at h
      | cons c r0 =>
        rw [parseMembers.eq_3] at h
        by_cases hc : c = '"'
        · rw [if_pos hc] at h
          rcases hs : lexStr r0 [] with _ | ⟨k, r1⟩ <;> rw [hs] at h
          · simp at h
          · simp only [Option.some.injEq] at h
            rcases hsw : skipWs r1 with _ | ⟨c2, r2⟩ <;> rw [hsw] at h
            · simp at h
            · simp only [Option.some.injEq] at h
              by_cases hcol : c2 = ':'
              · rw [if_pos hcol] at h
                rcases hv : parseVal fuel (skipWs r2) with _ | ⟨v, r3⟩ <;> rw [hv] at h
                · simp at h
                · simp only [Option.some.injEq] at h
                  rcases hsw2 : skipWs r3 with _ | ⟨c3, r4⟩ <;> rw [hsw2] at h
                  · simp at h
                  · simp only [Option.some.injEq] at h
                    by_cases hcom : c3 = ','
                    · rw [if_pos hcom] at h
                      rcases hm : parseMembers fuel (skipWs r4) with _ | ⟨kvs', r5⟩ <;>
                        rw [hm] at h
                      · simp at h
                      · simp only [Option.some.injEq, Prod.mk.injEq] at h
                        rw [← h.1, wfM_cons]
                        rw [ihV _ _ _ hv, ihM _ _ _ hm]
                        rfl
                    · rw [if_neg hcom] at h
                      by_cases hbr : c3 = '}'
                      · rw [if_pos hbr] at h
                        simp only [Option.some.injEq, Prod.mk.injEq] at h
                        rw [← h.1, wfM_cons]
                        rw [ihV _ _ _ hv]
                        rfl
                      · rw [if_neg hbr] at h
                        simp at h
              · rw [if_neg hcol] at h
                simp at h
        · rw [if_neg hc] at h
          simp at h
    · intro cs xs r h
      cases cs with
      | nil =>
        rw [parseItems.eq_2] at h
        rcases hv : parseVal fuel [] with _ | ⟨v, r1⟩ <;> rw [hv] at h
        · simp at h
        · simp only [Option.some.injEq] at h
          rcases hsw : skipWs r1 with _ | ⟨c1, r2⟩ <;> rw [hsw] at h
          · simp at h
          · simp only [Option.some.injEq] at h
            by_cases hcom : c1 = ','
            · rw [if_pos hcom] at h
              rcases hm : parseItems fuel (skipWs r2) with _ | ⟨xs', r3⟩ <;> rw [hm] at h
              · simp at h
              · simp only [Option.some.injEq, Prod.mk.injEq] at h
                rw [← h.1, wfL_cons]
                rw [ihV _ _ _ hv, ihI _ _ _ hm]
                rfl
            · rw [if_neg hcom] at h
              by_cases hbr : c1 = ']'
              · rw [if_pos hbr] at h
                simp only [Option.some.injEq, Prod.mk.injEq] at h
                rw [← h.1, wfL_cons]
                rw [ihV _ _ _ hv]
                rfl
              · rw [if_neg hbr] at h
                simp at h
      | cons c r0 =>
        rw [show parseItems (fuel + 1) (c :: r0) = parseItems fuel.succ (c :: r0) from rfl] at h
        rw [parseItems.eq_2] at h
        rcases hv : parseVal fuel (c :: r0) with _ | ⟨v, r1⟩ <;> rw [hv] at h
        · simp at h
        · simp only [Option.some.injEq] at h
          rcases hsw : skipWs r1 with _ | ⟨c1, r2⟩ <;> rw [hsw] at h
          · simp at h
          · simp only [Option.some.injEq] at h
            by_cases hcom : c1 = ','
            · rw [if_pos hcom] at h
              rcases hm : parseItems fuel (skipWs r2) with _ | ⟨xs', r3⟩ <;> rw [hm] at h
              · simp at h
              · simp only [Option.some.injEq, Prod.mk.injEq] at h
                rw [← h.1, wfL_cons]
                rw [ihV _ _ _ hv, ihI _ _ _ hm]
                rfl
            · rw [if_neg hcom] at h
              by_cases hbr : c1 = ']'
              · rw [if_pos hbr] at h
                simp only [Option.some.injEq, Prod.mk.injEq] at h
                rw [← h.1, wfL_cons]
                rw [ihV _ _ _ hv]
                rfl
              · rw [if_neg hbr] at h
                simp at h

theorem needV_pos (v : Json) : 1 ≤ needV v := by
  cases v with
  | null => exact le_refl 1
  | bool b => exact le_refl 1
  | num s => exact le_refl 1
  | str s => exact le_refl 1
  | arr xs => exact Nat.le_add_left 1 (needL xs)
  | obj kvs => exact Nat.le_add_left 1 (needM kvs)

theorem TermOk_members (kvs : List (String × Json)) (rest : Chars) :
    TermOk (dumpsMembers kvs ++ '}' :: rest) := by
  cases kvs with
  | nil => exact Or.inr ⟨'}', rest, rfl, Or.inr (Or.inl rfl)⟩
  | cons kv kvs => exact Or.inr ⟨',', _, rfl, Or.inl rfl⟩

theorem TermOk_items (xs : List Json) (rest : Chars) :
    TermOk (dumpsItems xs ++ ']' :: rest) := by
  cases xs with
  | nil => exact Or.inr ⟨']', rest, rfl, Or.inr (Or.inr rfl)⟩
  | cons x xs => exact Or.inr ⟨',', _, rfl, Or.inl rfl⟩

/-- The parser accepts the serialization of every well-formed value,
consuming exactly the serialization (the `dumps`-then-`loads` round
trip, stated for values, members and items with the fuel each needs). -/
theorem parse_dumps (fuel : Nat) :
    (∀ v rest, wfB v = true → needV v ≤ fuel → TermOk rest →
      ∃ w, parseVal fuel (dumpsVal v ++ rest) = some (w, rest)) ∧
    (∀ k v kvs rest, wfB v = true → wfM kvs = true → needM ((k, v) :: kvs) ≤ fuel →
      ∃ ws, parseMembers fuel
        (encStr k ++ ':' :: ' ' :: (dumpsVal v ++ (dumpsMembers kvs ++ '}' :: rest))) =
        some (ws, rest)) ∧
    (∀ x xs rest, wfB x = true → wfL xs = true → needL (x :: xs) ≤ fuel →
      ∃ ws, parseItems fuel (dumpsVal x ++ (dumpsItems xs ++ ']' :: rest)) =
        some (ws, rest)) := by
  induction fuel with
  | zero =>
    refine ⟨?_, ?_, ?_⟩
    · intro v rest _ hneed _
      exact absurd hneed (by have := needV_pos v; omega)
    · intro k v kvs rest _ _ hneed
      rw [show needM ((k, v) :: kvs) = needV v + needM kvs + 1 from rfl] at hneed
      exact absurd hneed (Nat.not_succ_le_zero _)
    · intro x xs rest _ _ hneed
      rw [show needL (x :: xs) = needV x + needL xs + 1 from rfl] at hneed
      exact absurd hneed (Nat.not_succ_le_zero _)
  | succ fuel ih =>
    obtain ⟨ihV, ihM, ihI⟩ := ih
    refine ⟨?_, ?_, ?_⟩
    · intro v rest hwf hneed hterm
      cases v with
      | null =>
        refine ⟨.null, ?_⟩
        show parseVal (fuel + 1) ('n' :: 'u' :: 'l' :: 'l' :: rest) = some (.null, rest)
        rw [parseVal.eq_3]
        simp [lexNum, lexNumCore, lexInt, dropLit]
      | bool b =>
        cases b
        · refine ⟨.bool false, ?_⟩
          show parseVal (fuel + 1) ('f' :: 'a' :: 'l' :: 's' :: 'e' :: rest) =
            some (.bool false, rest)
          rw [parseVal.eq_3]
          simp [lexNum, lexNumCore, lexInt, dropLit]
        · refine ⟨.bool true, ?_⟩
          show parseVal (fuel + 1) ('t' :: 'r' :: 'u' :: 'e' :: rest) = some (.bool true, rest)
          rw [parseVal.eq_3]
          simp [lexNum, lexNumCore, lexInt, dropLit]
      | str s =>
        obtain ⟨w, hw⟩ := lexStr_enc s.data [] rest
        refine ⟨.str w, ?_⟩
        show parseVal (fuel + 1) ('"' :: ((s.data.flatMap escChar ++ ['"']) ++ rest)) =
          some (.str w, rest)
        rw [parseVal.eq_3]
        rw [if_neg (by decide : ¬('"' = '{')), if_neg (by decide : ¬('"' = '[')), if_pos rfl]
        have hsh : (s.data.flatMap escChar ++ ['"']) ++ rest =
            s.data.flatMap escChar ++ '"' :: rest := by simp
        rw [hsh, hw]
      | num s =>
        rw [wfB_num] at hwf
        simp only [Bool.or_eq_true, beq_iff_eq] at hwf
        rcases hwf with ((rfl | rfl) | rfl) | hlex
        · refine ⟨.num "NaN", ?_⟩
          show parseVal (fuel + 1) ('N' :: 'a' :: 'N' :: rest) = some (.num "NaN", rest)
          rw [parseVal.eq_3]
          simp [lexNum, lexNumCore, lexInt, dropLit]
        · refine ⟨.num "Infinity", ?_⟩
          show parseVal (fuel + 1)
            ('I' :: 'n' :: 'f' :: 'i' :: 'n' :: 'i' :: 't' :: 'y' :: rest) =
            some (.num "Infinity", rest)
          rw [parseVal.eq_3]
          simp [lexNum, lexNumCore, lexInt, dropLit]
        · refine ⟨.num "-Infinity", ?_⟩
          show parseVal (fuel + 1)
            ('-' :: 'I' :: 'n' :: 'f' :: 'i' :: 'n' :: 'i' :: 't' :: 'y' :: rest) =
            some (.num "-Infinity", rest)
          rw [parseVal.eq_3]
          simp [lexNum, lexNumCore, lexInt, dropLit]
        · have hn := lexNum_of_numLex hlex
          have hrelex := lexNum_relex s.data s.data [] hn rest (numDelim_of_TermOk hterm)
          obtain ⟨d, ds, hds, hd⟩ := lexNum_head _ _ _ hn
          have hne1 : d ≠ '{' ∧ d ≠ '[' ∧ d ≠ '"' := by
            rcases hd with rfl | hd
            · exact ⟨by decide, by decide, by decide⟩
            · exact ⟨(digit_ne_specials hd).2.2.2.2.2.1, (digit_ne_specials hd).2.2.2.2.2.2.1,
                (digit_ne_specials hd).2.2.2.2.2.2.2⟩
          refine ⟨.num (String.mk s.data), ?_⟩
          show parseVal (fuel + 1) (s.data ++ rest) = some (.num (String.mk s.data), rest)
          rw [hds] at hrelex ⊢
          rw [List.cons_append] at hrelex ⊢
          rw [parseVal.eq_3]
          rw [if_neg hne1.1, if_neg hne1.2.1, if_neg hne1.2.2, hrelex]
      | arr xs =>
        cases xs with
        | nil =>
          refine ⟨.arr [], ?_⟩
          show parseVal (fuel + 1) ('[' :: ']' :: rest) = some (.arr [], rest)
          rw [parseVal.eq_3]
          rw [if_neg (by decide : ¬('[' = '{')), if_pos rfl,
            skipWs_cons_of rest (by decide)]
          simp
        | cons x xs =>
          have hwf' : wfB x = true ∧ wfL xs = true := by
            rw [wfB_arr, wfL_cons, Bool.and_eq_true] at hwf
            exact hwf
          have hneed' : needL (x :: xs) ≤ fuel := by
            have he : needV (.arr (x :: xs)) = needL (x :: xs) + 1 := rfl
            omega
          obtain ⟨ws, hws⟩ := ihI x xs rest hwf'.1 hwf'.2 hneed'
          refine ⟨.arr ws, ?_⟩
          show parseVal (fuel + 1)
            ('[' :: ((dumpsVal x ++ dumpsItems xs ++ [']']) ++ rest)) = some (.arr ws, rest)
          rw [parseVal.eq_3]
          rw [if_neg (by decide : ¬('[' = '{')), if_pos rfl]
          obtain ⟨c0, t0, hdx, hc0ws, _, hc0br, _⟩ := dumpsVal_head x hwf'.1
          have hsh : (dumpsVal x ++ dumpsItems xs ++ [']']) ++ rest =
              c0 :: (t0 ++ (dumpsItems xs ++ ']' :: rest)) := by
            rw [hdx]
            simp
          rw [hsh, skipWs_cons_of _ hc0ws]
          simp only [Option.some.injEq]
          rw [if_neg hc0br]
          have hsh2 : c0 :: (t0 ++ (dumpsItems xs ++ ']' :: rest)) =
              dumpsVal x ++ (dumpsItems xs ++ ']' :: rest) := by
            rw [hdx]
            rfl
          rw [hsh2, hws]
      | obj kvs =>
        cases kvs with
        | nil =>
          refine ⟨.obj [], ?_⟩
          show parseVal (fuel + 1) ('{' :: '}' :: rest) = some (.obj [], rest)
          rw [parseVal.eq_3]
          rw [if_pos rfl, skipWs_cons_of rest (by decide)]
          simp
        | cons kv kvs =>
          have hwf' : wfB kv.2 = true ∧ wfM kvs = true := by
            rw [wfB_obj, wfM_cons, Bool.and_eq_true] at hwf
            exact hwf
          have hneed' : needM ((kv.1, kv.2) :: kvs) ≤ fuel := by
            have he : needV (.obj (kv :: kvs)) = needM (kv :: kvs) + 1 := rfl
            have he2 : needM ((kv.1, kv.2) :: kvs) = needM (kv :: kvs) := rfl
            omega
          obtain ⟨ws, hws⟩ := ihM kv.1 kv.2 kvs rest hwf'.1 hwf'.2 hneed'
          refine ⟨.obj ws, ?_⟩
          show parseVal (fuel + 1)
            ('{' :: ((encStr kv.1 ++ ':' :: ' ' :: dumpsVal kv.2 ++ dumpsMembers kvs ++ ['}'])
              ++ rest)) = some (.obj ws, rest)
          rw [parseVal.eq_3]
          rw [if_pos rfl]
          have hsh : (encStr kv.1 ++ ':' :: ' ' :: dumpsVal kv.2 ++ dumpsMembers kvs ++ ['}'])
              ++ rest =
              '"' :: ((kv.1.data.flatMap escChar ++ ['"']) ++
                (':' :: ' ' :: dumpsVal kv.2 ++ dumpsMembers kvs ++ '}' :: rest)) := by
            simp [encStr]
          rw [hsh, skipWs_cons_of _ (by decide)]
          simp only [Option.some.injEq]
          rw [if_neg (by decide : ¬('"' = '}'))]
          have hsh2 : ('"' : Char) :: ((kv.1.data.flatMap escChar ++ ['"']) ++
              (':' :: ' ' :: dumpsVal kv.2 ++ dumpsMembers kvs ++ '}' :: rest)) =
              encStr kv.1 ++ ':' :: ' ' :: (dumpsVal kv.2 ++ (dumpsMembers kvs ++ '}' :: rest))
              := by
            simp [encStr]
          rw [hsh2, hws]
    · intro k v kvs rest hwv hwkvs hneed
      have hneedv : needV v ≤ fuel := by
        have he : needM ((k, v) :: kvs) = needV v + needM kvs + 1 := rfl
        omega
      obtain ⟨wk, hwk⟩ := lexStr_enc k.data []
        (':' :: ' ' :: (dumpsVal v ++ (dumpsMembers kvs ++ '}' :: rest)))
      obtain ⟨wv, hwv2⟩ := ihV v (dumpsMembers kvs ++ '}' :: rest) hwv hneedv
        (TermOk_members kvs rest)
      have hstep : parseMembers (fuel + 1)
          (encStr k ++ ':' :: ' ' :: (dumpsVal v ++ (dumpsMembers kvs ++ '}' :: rest))) =
          match skipWs (dumpsMembers kvs ++ '}' :: rest) with
          | [] => none
          | c3 :: r4 =>
            if c3 = ',' then
              match parseMembers fuel (skipWs r4) with
              | some (kvs', r5) => some ((wk, wv) :: kvs', r5)
              | none => none
            else if c3 = '}' then some ([(wk, wv)], r4)
            else none := by
        show parseMembers (fuel + 1)
          ('"' :: ((k.data.flatMap escChar ++ ['"']) ++
            (':' :: ' ' :: (dumpsVal v ++ (dumpsMembers kvs ++ '}' :: rest))))) = _
        rw [parseMembers.eq_3, if_pos rfl]
        have hsh : (k.data.flatMap escChar ++ ['"']) ++
            (':' :: ' ' :: (dumpsVal v ++ (dumpsMembers kvs ++ '}' :: rest))) =
            k.data.flatMap escChar ++
              '"' :: (':' :: ' ' :: (dumpsVal v ++ (dumpsMembers kvs ++ '}' :: rest))) := by
          simp
        rw [hsh, hwk]
        have hsw : skipWs (' ' :: (dumpsVal v ++ (dumpsMembers kvs ++ '}' :: rest))) =
            dumpsVal v ++ (dumpsMembers kvs ++ '}' :: rest) := by
          rw [skipWs_space]
          obtain ⟨c0, t0, hdx, hc0ws, _, _, _⟩ := dumpsVal_head v hwv
          rw [hdx, List.cons_append]
          exact skipWs_cons_of _ hc0ws
        simp only [Option.some.injEq]
        rw [skipWs_cons_of _ (by decide)]
        simp only [Option.some.injEq, reduceIte]
        rw [hsw, hwv2]
      cases kvs with
      | nil =>
        refine ⟨[(wk, wv)], ?_⟩
        rw [hstep]
        show (match skipWs ('}' :: rest) with
          | [] => none
          | c3 :: r4 =>
            if c3 = ',' then
              match parseMembers fuel (skipWs r4) with
              | some (kvs', r5) => some ((wk, wv) :: kvs', r5)
              | none => none
            else if c3 = '}' then some ([(wk, wv)], r4)
            else none) = some ([(wk, wv)], rest)
        rw [skipWs_cons_of _ (by decide)]
        simp
      | cons kv2 kvs2 =>
        have hwf2 : wfB kv2.2 = true ∧ wfM kvs2 = true := by
          rw [wfM_cons, Bool.and_eq_true] at hwkvs
          exact hwkvs
        have hneed2 : needM ((kv2.1, kv2.2) :: kvs2) ≤ fuel := by
          have he : needM ((k, v) :: kv2 :: kvs2) = needV v + needM (kv2 :: kvs2) + 1 := rfl
          have he2 : needM ((kv2.1, kv2.2) :: kvs2) = needM (kv2 :: kvs2) := rfl
          omega
        obtain ⟨ws2, hws2⟩ := ihM kv2.1 kv2.2 kvs2 rest hwf2.1 hwf2.2 hneed2
        refine ⟨(wk, wv) :: ws2, ?_⟩
        rw [hstep]
        show (match skipWs (',' :: ' ' ::
            ((encStr kv2.1 ++ ':' :: ' ' :: dumpsVal kv2.2 ++ dumpsMembers kvs2) ++
            '}' :: rest)) with
          | [] => none
          | c3 :: r4 =>
            if c3 = ',' then
              match parseMembers fuel (skipWs r4) with
              | some (kvs', r5) => some ((wk, wv) :: kvs', r5)
              | none => none
            else if c3 = '}' then some ([(wk, wv)], r4)
            else none) = some ((wk, wv) :: ws2, rest)
        rw [skipWs_cons_of _ (by decide)]
        simp only [Option.some.injEq, reduceIte]
        have hsw2 : skipWs (' ' ::
            ((encStr kv2.1 ++ ':' :: ' ' :: dumpsVal kv2.2 ++ dumpsMembers kvs2) ++
            '}' :: rest)) =
            encStr kv2.1 ++ ':' :: ' ' :: (dumpsVal kv2.2 ++ (dumpsMembers kvs2 ++ '}' :: rest))
            := by
          rw [skipWs_space]
          have hsh3 : (encStr kv2.1 ++ ':' :: ' ' :: dumpsVal kv2.2 ++ dumpsMembers kvs2) ++
              '}' :: rest =
              '"' :: ((kv2.1.data.flatMap escChar ++ ['"']) ++
                (':' :: ' ' :: (dumpsVal kv2.2 ++ (dumpsMembers kvs2 ++ '}' :: rest)))) := by
            simp [encStr]
          rw [hsh3, skipWs_cons_of _ (by decide)]
          simp [encStr]
        rw [hsw2, hws2]
    · intro x xs rest hwx hwxs hneed
      have hneedx : needV x ≤ fuel := by
        have he : needL (x :: xs) = needV x + needL xs + 1 := rfl
        omega
      obtain ⟨wx, hwx2⟩ := ihV x (dumpsItems xs ++ ']' :: rest) hwx hneedx
        (TermOk_items xs rest)
      have hstep : parseItems (fuel + 1) (dumpsVal x ++ (dumpsItems xs ++ ']' :: rest)) =
          match skipWs (dumpsItems xs ++ ']' :: rest) with
          | [] => none
          | c1 :: r2 =>
            if c1 = ',' then
              match parseItems fuel (skipWs r2) with
              | some (xs', r3) => some (wx :: xs', r3)
              | none => none
            else if c1 = ']' then some ([wx], r2)
            else none := by
        rw [show parseItems (fuel + 1) (dumpsVal x ++ (dumpsItems xs ++ ']' :: rest)) =
          parseItems fuel.succ (dumpsVal x ++ (dumpsItems xs ++ ']' :: rest)) from rfl,
          parseItems.eq_2, hwx2]
      cases xs with
      | nil =>
        refine ⟨[wx], ?_⟩
        rw [hstep]
        show (match skipWs (']' :: rest) with
          | [] => none
          | c1 :: r2 =>
            if c1 = ',' then
              match parseItems fuel (skipWs r2) with
              | some (xs', r3) => some (wx :: xs', r3)
              | none => none
            else if c1 = ']' then some ([wx], r2)
            else none) = some ([wx], rest)
        rw [skipWs_cons_of _ (by decide)]
        simp
      | cons y ys =>
        have hwfy : wfB y = true ∧ wfL ys = true := by
          rw [wfL_cons, Bool.and_eq_true] at hwxs
          exact hwxs
        have hneedy : needL (y :: ys) ≤ fuel := by
          have he : needL (x :: y :: ys) = needV x + needL (y :: ys) + 1 := rfl
          omega
        obtain ⟨wys, hwys⟩ := ihI y ys rest hwfy.1 hwfy.2 hneedy
        refine ⟨wx :: wys, ?_⟩
        rw [hstep]
        show (match skipWs (',' :: ' ' :: ((dumpsVal y ++ dumpsItems ys) ++ ']' :: rest)) with
          | [] => none
          | c1 :: r2 =>
            if c1 = ',' then
              match parseItems fuel (skipWs r2) with
              | some (xs', r3) => some (wx :: xs', r3)
              | none => none
            else if c1 = ']' then some ([wx], r2)
            else none) = some (wx :: wys, rest)
        rw [skipWs_cons_of _ (show isJsonWs ',' = false by decide)]
        simp only [Option.some.injEq, reduceIte]
        have hsw : skipWs (' ' :: ((dumpsVal y ++ dumpsItems ys) ++ ']' :: rest)) =
            dumpsVal y ++ (dumpsItems ys ++ ']' :: rest) := by
          rw [skipWs_space]
          obtain ⟨c0, t0, hdy, hc0ws, _, _, _⟩ := dumpsVal_head y hwfy.1
          rw [hdy]
          rw [show (((c0 :: t0) ++ dumpsItems ys) ++ ']' :: rest) =
            c0 :: ((t0 ++ dumpsItems ys) ++ ']' :: rest) from rfl]
          rw [skipWs_cons_of _ hc0ws]
          simp
        rw [hsw, hwys]

mutual

theorem needV_le (v : Json) : needV v ≤ (dumpsVal v).length + 1 := by
  cases v with
  | null => exact (by decide : needV .null ≤ (dumpsVal .null).length + 1)
  | bool b => cases b <;> decide
  | num s =>
    exact le_trans (le_refl 1) (Nat.le_add_left 1 _)
  | str s =>
    exact le_trans (le_refl 1) (Nat.le_add_left 1 _)
  | arr xs =>
    cases xs with
    | nil => decide
    | cons x xs =>
      have h := needL_le (x :: xs)
      have he : needV (.arr (x :: xs)) = needL (x :: xs) + 1 := rfl
      have hl : (dumpsVal (.arr (x :: xs))).length =
          (dumpsVal x).length + (dumpsItems xs).length + 2 := by
        show ('[' :: (dumpsVal x ++ dumpsItems xs ++ [']'])).length = _
        simp
        omega
      have hil : (dumpsItems (x :: xs)).length =
          (dumpsVal x).length + (dumpsItems xs).length + 2 := by
        show (',' :: ' ' :: (dumpsVal x ++ dumpsItems xs)).length = _
        simp
      omega
  | obj kvs =>
    cases kvs with
    | nil => decide
    | cons kv kvs =>
      have h := needM_le (kv :: kvs)
      have he : needV (.obj (kv :: kvs)) = needM (kv :: kvs) + 1 := rfl
      have hl : (dumpsVal (.obj (kv :: kvs))).length =
          (encStr kv.1).length + (dumpsVal kv.2).length + (dumpsMembers kvs).length + 4 := by
        show ('{' :: (encStr kv.1 ++ ':' :: ' ' :: dumpsVal kv.2 ++ dumpsMembers kvs ++ ['}'])).length
          = _
        simp
        omega
      have hml : (dumpsMembers (kv :: kvs)).length =
          (encStr kv.1).length + (dumpsVal kv.2).length + (dumpsMembers kvs).length + 4 := by
        show (',' :: ' ' :: (encStr kv.1 ++ ':' :: ' ' :: dumpsVal kv.2 ++ dumpsMembers kvs)).length
          = _
        simp
        omega
      omega

theorem needL_le (l : List Json) : needL l ≤ (dumpsItems l).length := by
  cases l with
  | nil => decide
  | cons x xs =>
    have h1 := needV_le x
    have h2 := needL_le xs
    have he : needL (x :: xs) = needV x + needL xs + 1 := rfl
    have hil : (dumpsItems (x :: xs)).length =
        (dumpsVal x).length + (dumpsItems xs).length + 2 := by
      show (',' :: ' ' :: (dumpsVal x ++ dumpsItems xs)).length = _
      simp
    omega

theorem needM_le (l : List (String × Json)) : needM l ≤ (dumpsMembers l).length := by
  cases l with
  | nil => decide
  | cons kv kvs =>
    have h1 := needV_le kv.2
    have h2 := needM_le kvs
    have he : needM (kv :: kvs) = needV kv.2 + needM kvs + 1 := rfl
    have hml : (dumpsMembers (kv :: kvs)).length =
        (encStr kv.1).length + (dumpsVal kv.2).length + (dumpsMembers kvs).length + 4 := by
      show (',' :: ' ' :: (encStr kv.1 ++ ':' :: ' ' :: dumpsVal kv.2 ++ dumpsMembers kvs)).length
        = _
      simp
      omega
    omega

end

/-- The serialization of every well-formed value is valid JSON text:
the embedded `json.dumps` / `json.loads` round trip succeeds. -/
theorem dumps_valid (v : Json) (hwf : wfB v = true) : isValidJson (jsonDumps v) = true := by
  have hfuel : needV v ≤ (jsonDumps v).length + 1 := by
    have h1 := needV_le v
    have h2 : (jsonDumps v).length = (dumpsVal v).length := rfl
    omega
  obtain ⟨w, hw⟩ := (parse_dumps ((jsonDumps v).length + 1)).1 v [] hwf hfuel (Or.inl rfl)
  rw [List.append_nil] at hw
  obtain ⟨c, t, hdx, hcws, _, _, _⟩ := dumpsVal_head v hwf
  have hskip : skipWs (jsonDumps v).data = dumpsVal v := by
    show skipWs (dumpsVal v) = dumpsVal v
    rw [hdx]
    exact skipWs_cons_of _ hcws
  unfold isValidJson jsonLoads
  rw [hskip, hw]
  rfl

/-- Values returned by the embedded `json.loads` are well-formed. -/
theorem jsonLoads_wf {s : String} {v : Json} (h : jsonLoads s = some v) : wfB v = true := by
  unfold jsonLoads at h
  rcases hp : parseVal (s.length + 1) (skipWs s.data) with _ | ⟨w, rest⟩ <;> rw [hp] at h
  · simp at h
  · simp only [Option.some.injEq] at h
    by_cases hr : skipWs rest = []
    · rw [if_pos hr] at h
      simp only [Option.some.injEq] at h
      rw [← h]
      exact (parse_wf (s.length + 1)).1 _ _ _ hp
    · rw [if_neg hr] at h
      simp at h

/-- Every object the splitting loop of Argument Repair collects is
well-formed (it came out of `json.loads`). -/
theorem splitScan_wf (cs : Chars) : ∀ (cur : Chars) (brace : Int) (objs : List Json),
    (∀ v ∈ objs, wfB v = true) → ∀ v ∈ splitScan cs cur brace objs, wfB v = true := by
  induction cs with
  | nil =>
    intro cur brace objs hobjs v hv
    exact hobjs v hv
  | cons c rest ih =>
    intro cur brace objs hobjs v hv
    rw [splitScan.eq_2] at hv
    by_cases hc1 : c = '{'
    · rw [if_pos hc1] at hv
      exact ih _ _ _ hobjs v hv
    · rw [if_neg hc1] at hv
      by_cases hc2 : c = '}'
      · rw [if_pos hc2] at hv
        by_cases hcond : brace - 1 = 0 ∧ ¬(pyStripChars (cur ++ [c])).isEmpty
        · rw [if_pos hcond] at hv
          rcases hl : jsonLoads (String.mk (pyStripChars (cur ++ [c]))) with _ | ⟨w⟩ <;>
            rw [hl] at hv
          · exact ih _ _ _ hobjs v hv
          · refine ih _ _ _ ?_ v hv
            intro u hu
            rcases List.mem_append.mp hu with hu1 | hu2
            · exact hobjs u hu1
            · rw [List.mem_singleton.mp hu2]
              exact jsonLoads_wf hl
        · rw [if_neg hcond] at hv
          exact ih _ _ _ hobjs v hv
      · rw [if_neg hc2] at hv
        exact ih _ _ _ hobjs v hv

/-- Claim C6 core: on every input, Argument Repair terminates with
syntactically valid JSON text. -/
theorem validFix_valid (s : String) :
    isValidJson (validate_and_fix_tool_call_args s) = true := by
  unfold validate_and_fix_tool_call_args
  by_cases h0 : s.isEmpty
  · rw [if_pos h0]
    rfl
  · rw [if_neg h0]
    simp only []
    rcases hsplit : (if countBraceJoin (pyStrip s).data > 0 then
        match splitScan (pyStrip s).data [] 0 [] with
        | [] => none
        | v :: _ => some (jsonDumps v)
      else none) with _ | out
    · rw [hsplit]
      rcases hl : jsonLoads (pyStrip s) with _ | w
      · rcases hl2 : jsonLoads (if ¬pyEndsWith (pyStrip s) "\x7d" ∧
            (pyStrip s).data.count '{' > (pyStrip s).data.count '}' then pyStrip s ++ "\x7d"
          else if ¬pyEndsWith (pyStrip s) "\x5d" ∧
            (pyStrip s).data.count '[' > (pyStrip s).data.count ']' then pyStrip s ++ "\x5d"
          else pyStrip s) with _ | w2
        · rfl
        · show isValidJson (if ¬pyEndsWith (pyStrip s) "\x7d" = true ∧
              (pyStrip s).data.count '{' > (pyStrip s).data.count '}' then pyStrip s ++ "\x7d"
            else if ¬pyEndsWith (pyStrip s) "\x5d" = true ∧
              (pyStrip s).data.count '[' > (pyStrip s).data.count ']' then pyStrip s ++ "\x5d"
            else pyStrip s) = true
          unfold isValidJson
          rw [hl2]
          rfl
      · show isValidJson (pyStrip s) = true
        unfold isValidJson
        rw [hl]
        rfl
    · rw [hsplit]
      show isValidJson out = true
      by_cases hc : countBraceJoin (pyStrip s).data > 0
      · rw [if_pos hc] at hsplit
        rcases hs : splitScan (pyStrip s).data [] 0 [] with _ | ⟨v, vs⟩ <;> rw [hs] at hsplit
        · simp at hsplit
        · simp only [Option.some.injEq] at hsplit
          rw [← hsplit]
          refine dumps_valid v ?_
          exact splitScan_wf _ _ _ _ (fun u hu => absurd hu (List.not_mem_nil u)) v
            (by rw [hs]; exact List.mem_cons_self v vs)
      · rw [if_neg hc] at hsplit
        simp at hsplit

/-! ### Streaming translation and aggregation agree on text content -/

theorem convertChunk_content (c : Chunk) (m : IdxMap) :
    chunkContent (convertChunk c m).1 = chunkContent c := by
  unfold convertChunk
  rcases c with ⟨id, model, fp, usage, choices⟩
  cases choices with
  | nil => rfl
  | cons choice rest =>
    by_cases h : (choice.delta.getD {}).tool_calls.isEmpty
    · simp only [h]
      rfl
    · simp only [h]
      simp [chunkContent]

theorem convertStream_contents (chunks : List Chunk) : ∀ (m : IdxMap),
    (convertStream chunks m).1.map chunkContent = chunks.map chunkContent := by
  induction chunks with
  | nil => intro m; rfl
  | cons c cs ih =>
    intro m
    simp only [convertStream, List.map_cons]
    rw [convertChunk_content, ih]

theorem processToolCall_data (st : AggState) (tc : ToolCallFragment) :
    (processToolCall st tc).data = st.data := by
  unfold processToolCall
  simp only []
  repeat' split
  all_goals rfl

theorem foldToolCalls_data (tcs : List ToolCallFragment) : ∀ (st : AggState),
    (tcs.foldl processToolCall st).data = st.data := by
  induction tcs with
  | nil => intro st; rfl
  | cons tc tcs ih =>
    intro st
    rw [List.foldl_cons, ih, processToolCall_data]

theorem isEmpty_eq_true_iff (s : String) : s.isEmpty = true ↔ s = "" :=
  String.isEmpty_iff s

theorem isTruthy_none : isTruthy (none : Option String) = false := rfl

theorem isTruthy_some (s : String) : isTruthy (some s) = !s.isEmpty := rfl

theorem getD_empty_of_not_truthy {o : Option String} (h : isTruthy o = false) :
    o.getD "" = "" := by
  cases o with
  | none => rfl
  | some s =>
    simp only [isTruthy, Bool.not_eq_eq_eq_not, Bool.not_true] at h
    simp [(isEmpty_eq_true_iff s).mp h]

theorem process_chunk_content (st : AggState) (c : Chunk) :
    (process_chunk st c).data.content = st.data.content ++ chunkContent c := by
  rcases c with ⟨id, model, fp, usage, choices⟩
  cases choices with
  | nil =>
    by_cases hu : truthyUsage usage <;> simp [process_chunk, chunkContent, hu]
  | cons choice rest =>
    rcases hcc : (choice.delta.getD {}).content with _ | s
    · by_cases hfr : isTruthy choice.finish_reason <;>
        by_cases htc : (choice.delta.getD {}).tool_calls.isEmpty <;>
          by_cases hu : truthyUsage usage <;>
            simp [process_chunk, chunkContent, hcc, hfr, htc, hu, foldToolCalls_data,
              isTruthy_none, isTruthy_some]
    · by_cases hse : s.isEmpty
      · have hs : s = "" := (isEmpty_eq_true_iff s).mp hse
        subst hs
        by_cases hfr : isTruthy choice.finish_reason <;>
          by_cases htc : (choice.delta.getD {}).tool_calls.isEmpty <;>
            by_cases hu : truthyUsage usage <;>
              simp [process_chunk, chunkContent, hcc, hfr, htc, hu, foldToolCalls_data,
              isTruthy_none, isTruthy_some]
      · rw [Bool.not_eq_true] at hse
        by_cases hfr : isTruthy choice.finish_reason <;>
          by_cases htc : (choice.delta.getD {}).tool_calls.isEmpty <;>
            by_cases hu : truthyUsage usage <;>
              simp [process_chunk, chunkContent, hcc, hse, hfr, htc, hu, foldToolCalls_data,
              isTruthy_none, isTruthy_some]

theorem strFoldl_append (l : List String) : ∀ (x y : String),
    l.foldl (· ++ ·) (x ++ y) = x ++ l.foldl (· ++ ·) y := by
  induction l with
  | nil => intro x y; rfl
  | cons a l ih =>
    intro x y
    rw [List.foldl_cons, List.foldl_cons, String.append_assoc, ih]

theorem strJoin_cons (a : String) (l : List String) :
    String.join (a :: l) = a ++ String.join l := by
  show (a :: l).foldl (· ++ ·) "" = a ++ l.foldl (· ++ ·) ""
  rw [List.foldl_cons]
  have h1 : ("" : String) ++ a = a ++ "" := by simp
  rw [h1, strFoldl_append]

theorem aggregate_content (chunks : List Chunk) : ∀ (st : AggState),
    (chunks.foldl process_chunk st).data.content =
      st.data.content ++ String.join (chunks.map chunkContent) := by
  induction chunks with
  | nil => intro st; simp [String.join]
  | cons c cs ih =>
    intro st
    rw [List.foldl_cons, ih, process_chunk_content]
    rw [List.map_cons, strJoin_cons, String.append_assoc]

theorem finalize_content (st : AggState) (now : Nat) (freshId : String) :
    ((finalize st now freshId).2.choices.map fun c => c.message.content) =
      [st.data.content] := by
  by_cases h : st.tool_call_map.isEmpty <;> simp [finalize, h]

/-- C1: for every upstream chunk stream, the concatenation of the text deltas
the Stream Translator re-serializes in streaming mode equals the `content`
field of the final message the Response Aggregator's `finalize` produces for
the same stream in non-streaming mode. -/
theorem C1_streaming_and_aggregated_content_agree (chunks : List Chunk)
    (now : Nat) (freshId : String) :
    ((finalize (aggregateList chunks) now freshId).2.choices.map
        fun c => c.message.content) = [emittedContent chunks] := by
  have h1 : emittedContent chunks = String.join (chunks.map chunkContent) := by
    rw [emittedContent, convertAll, convertStream_contents]
  rw [finalize_content, h1, aggregateList, aggregate_content]
  simp

theorem str_empty_append (s : String) : "" ++ s = s := rfl

theorem mapUpdate_nil (k : String) (f : ToolEntry → ToolEntry) :
    mapUpdate [] k f = [] := rfl

theorem mapUpdate_cons_eq (k : String) (e : ToolEntry) (m : List (String × ToolEntry))
    (f : ToolEntry → ToolEntry) :
    mapUpdate ((k, e) :: m) k f = (k, f e) :: mapUpdate m k f := by
  simp [mapUpdate]

theorem mapUpdate_cons_ne (j k : String) (e : ToolEntry) (m : List (String × ToolEntry))
    (f : ToolEntry → ToolEntry) (h : j ≠ k) :
    mapUpdate ((j, e) :: m) k f = (j, e) :: mapUpdate m k f := by
  simp [mapUpdate, h]

/-- C2: a stream with two tool calls whose fragments arrive with only the
opening fragment of each carrying an id (the argument fragments carry none)
aggregates into exactly two distinct entries, in first-seen order, each
holding (after the finalize-time Argument Repair) the concatenation of its
own argument fragments; the calls are never merged. -/
theorem C2_interleaved_two_tool_calls
    (idA idB nmA nmB a1 a2 b1 b2 : String)
    (hA : idA.isEmpty = false) (hB : idB.isEmpty = false)
    (hAB : idA ≠ idB)
    (hnA : nmA.isEmpty = false) (hnB : nmB.isEmpty = false)
    (ha1 : a1.isEmpty = false) (ha2 : a2.isEmpty = false)
    (hb1 : b1.isEmpty = false) (hb2 : b2.isEmpty = false)
    (now : Nat) (freshId : String) :
    ((finalize (aggregateList
        [idChunk idA nmA, argChunk a1, argChunk a2,
         idChunk idB nmB, argChunk b1, argChunk b2]) now freshId).2.choices.map
      fun c => c.message.tool_calls) =
      [some [⟨idA, "function", nmA, validate_and_fix_tool_call_args (a1 ++ a2)⟩,
             ⟨idB, "function", nmB, validate_and_fix_tool_call_args (b1 ++ b2)⟩]] := by
  have hBA : idB ≠ idA := Ne.symm hAB
  have hABb : (idA == idB) = false := beq_eq_false_iff_ne.mpr hAB
  have hBAb : (idB == idA) = false := beq_eq_false_iff_ne.mpr hBA
  have hstate : aggregateList
        [idChunk idA nmA, argChunk a1, argChunk a2,
         idChunk idB nmB, argChunk b1, argChunk b2] =
      { data := {},
        tool_call_map :=
          [(idA, ⟨idA, "function", nmA, a1 ++ a2⟩), (idB, ⟨idB, "function", nmB, b1 ++ b2⟩)],
        tool_call_order := [idA, idB],
        current_tool_id := some idB } := by
    simp [aggregateList, process_chunk, processToolCall, idChunk, argChunk,
          pyOr, isTruthy, truthyUsage, List.lookup, str_empty_append,
          mapUpdate_nil, mapUpdate_cons_eq, mapUpdate_cons_ne,
          hA, hB, hnA, hnB, ha1, ha2, hb1, hb2, hAB, hBA, hABb, hBAb]
  have l1 : List.lookup idA
      [(idA, (⟨idA, "function", nmA, a1 ++ a2⟩ : ToolEntry)),
       (idB, ⟨idB, "function", nmB, b1 ++ b2⟩)] =
      some ⟨idA, "function", nmA, a1 ++ a2⟩ := by simp
  have l2 : mapUpdate
      [(idA, (⟨idA, "function", nmA, a1 ++ a2⟩ : ToolEntry)),
       (idB, ⟨idB, "function", nmB, b1 ++ b2⟩)] idA
      (fun _ => ⟨idA, "function", nmA, validate_and_fix_tool_call_args (a1 ++ a2)⟩) =
      [(idA, ⟨idA, "function", nmA, validate_and_fix_tool_call_args (a1 ++ a2)⟩),
       (idB, ⟨idB, "function", nmB, b1 ++ b2⟩)] := by
    rw [mapUpdate_cons_eq, mapUpdate_cons_ne _ _ _ _ _ hBA, mapUpdate_nil]
  have l3 : List.lookup idB
      [(idA, (⟨idA, "function", nmA, validate_and_fix_tool_call_args (a1 ++ a2)⟩ : ToolEntry)),
       (idB, ⟨idB, "function", nmB, b1 ++ b2⟩)] =
      some ⟨idB, "function", nmB, b1 ++ b2⟩ := by simp [List.lookup, hBAb]
  have l4 : mapUpdate
      [(idA, (⟨idA, "function", nmA, validate_and_fix_tool_call_args (a1 ++ a2)⟩ : ToolEntry)),
       (idB, ⟨idB, "function", nmB, b1 ++ b2⟩)] idB
      (fun _ => ⟨idB, "function", nmB, validate_and_fix_tool_call_args (b1 ++ b2)⟩) =
      [(idA, ⟨idA, "function", nmA, validate_and_fix_tool_call_args (a1 ++ a2)⟩),
       (idB, ⟨idB, "function", nmB, validate_and_fix_tool_call_args (b1 ++ b2)⟩)] := by
    rw [mapUpdate_cons_ne _ _ _ _ _ hAB, mapUpdate_cons_eq, mapUpdate_nil]
  have hfin : finalizeToolCalls [idA, idB]
      [(idA, (⟨idA, "function", nmA, a1 ++ a2⟩ : ToolEntry)),
       (idB, ⟨idB, "function", nmB, b1 ++ b2⟩)] =
      ([(idA, ⟨idA, "function", nmA, validate_and_fix_tool_call_args (a1 ++ a2)⟩),
        (idB, ⟨idB, "function", nmB, validate_and_fix_tool_call_args (b1 ++ b2)⟩)],
       [⟨idA, "function", nmA, validate_and_fix_tool_call_args (a1 ++ a2)⟩,
        ⟨idB, "function", nmB, validate_and_fix_tool_call_args (b1 ++ b2)⟩]) := by
    rw [finalizeToolCalls, l1]
    simp only []
    rw [l2, finalizeToolCalls, l3]
    simp only []
    rw [l4, finalizeToolCalls]
  rw [hstate]
  simp [finalize, hfin]

theorem C2_interleaved_two_tool_calls_witness :
    ((finalize (aggregateList
        [idChunk "a" "f", argChunk "x", argChunk "y",
         idChunk "b" "g", argChunk "u", argChunk "v"]) 0 "rid").2.choices.map
      fun c => c.message.tool_calls) =
      [some [⟨"a", "function", "f", validate_and_fix_tool_call_args ("x" ++ "y")⟩,
             ⟨"b", "function", "g", validate_and_fix_tool_call_args ("u" ++ "v")⟩]] :=
  C2_interleaved_two_tool_calls "a" "b" "f" "g" "x" "y" "u" "v"
    (by decide) (by decide) (by decide) (by decide) (by decide)
    (by decide) (by decide) (by decide) (by decide) 0 "rid"

/-! ### Re-pass stability of the id remapper (C3) -/

theorem conv_head_t (i : String) (h : i.data.take 8 = "tooluse_".data) :
    convert_tool_call_id i = String.mk ('c' :: 'a' :: 'l' :: 'l' :: '_' :: i.data.drop 8) := by
  unfold convert_tool_call_id
  rw [if_pos h]

theorem conv_not_tooluse (i : String) (h : ¬ i.data.take 8 = "tooluse_".data) :
    convert_tool_call_id i = i := by
  unfold convert_tool_call_id
  rw [if_neg h]

theorem conv_call_fixed (l : Chars) :
    convert_tool_call_id (String.mk ('c' :: 'a' :: 'l' :: 'l' :: '_' :: l)) =
      String.mk ('c' :: 'a' :: 'l' :: 'l' :: '_' :: l) := by
  unfold convert_tool_call_id
  rw [if_neg]
  intro hc
  have h1 : (('c' :: 'a' :: 'l' :: 'l' :: '_' :: l).take 8).head? = some 'c' := rfl
  rw [show (String.mk ('c' :: 'a' :: 'l' :: 'l' :: '_' :: l)).data =
      'c' :: 'a' :: 'l' :: 'l' :: '_' :: l from rfl] at hc
  rw [hc] at h1
  exact absurd h1 (by decide)

theorem conv_idem (i : String) :
    convert_tool_call_id (convert_tool_call_id i) = convert_tool_call_id i := by
  by_cases h : i.data.take 8 = "tooluse_".data
  · rw [conv_head_t i h, conv_call_fixed]
  · rw [conv_not_tooluse i h, conv_not_tooluse i h]

theorem conv_nonempty (i : String) (h : i.isEmpty = false) :
    (convert_tool_call_id i).isEmpty = false := by
  by_cases ht : i.data.take 8 = "tooluse_".data
  · rw [conv_head_t i ht]
    cases hh : (String.mk ('c' :: 'a' :: 'l' :: 'l' :: '_' :: i.data.drop 8)).isEmpty
    · rfl
    · exact absurd (congrArg String.data ((isEmpty_eq_true_iff _).mp hh)) (by simp)
  · rw [conv_not_tooluse i ht]
    exact h

theorem lookup_mapKeysConv_eq (i : String) : ∀ (m : IdxMap),
    (∀ k ∈ m.map Prod.fst, convert_tool_call_id k = convert_tool_call_id i → k = i) →
    (mapKeysConv m).lookup (convert_tool_call_id i) = m.lookup i := by
  intro m
  induction m with
  | nil => intro _; rfl
  | cons p m ih =>
    intro hinj
    rcases p with ⟨k, v⟩
    by_cases hk : k = i
    · subst hk
      simp [mapKeysConv, List.lookup]
    · have hck : convert_tool_call_id k ≠ convert_tool_call_id i := fun hc =>
        hk (hinj k (by simp) hc)
      have hckb : (convert_tool_call_id i == convert_tool_call_id k) = false :=
        beq_eq_false_iff_ne.mpr (Ne.symm hck)
      have hkb : (i == k) = false := beq_eq_false_iff_ne.mpr (Ne.symm hk)
      simp only [mapKeysConv, List.map_cons, List.lookup, hckb, hkb]
      exact ih (fun a ha hc => hinj a (List.mem_cons_of_mem _ ha) hc)

theorem lookup_append_right (i : String) : ∀ (m l : IdxMap), m.lookup i = none →
    (m ++ l).lookup i = l.lookup i := by
  intro m
  induction m with
  | nil => intro l _; rfl
  | cons p m ih =>
    intro l h
    rcases p with ⟨k, v⟩
    by_cases hk : (i == k) = true
    · simp [List.lookup, hk] at h
    · have hkb : (i == k) = false := by
        cases hx : (i == k)
        · rfl
        · exact absurd hx hk
      simp only [List.lookup, hkb] at h ⊢
      exact ih l h

theorem mapKeysConv_append (m l : IdxMap) :
    mapKeysConv (m ++ l) = mapKeysConv m ++ mapKeysConv l := by
  simp [mapKeysConv]

theorem mapKeysConv_length (m : IdxMap) : (mapKeysConv m).length = m.length := by
  simp [mapKeysConv]

theorem mapKeysConv_isEmpty (m : IdxMap) : (mapKeysConv m).isEmpty = m.isEmpty := by
  cases m <;> rfl

theorem maxValues_mapKeysConv (m : IdxMap) : maxValues (mapKeysConv m) = maxValues m := by
  have h : ∀ (l : IdxMap) (acc : Nat),
      (mapKeysConv l).foldl (fun a p => max a p.2) acc = l.foldl (fun a p => max a p.2) acc := by
    intro l
    induction l with
    | nil => intro acc; rfl
    | cons p l ih =>
      intro acc
      simp only [mapKeysConv, List.map_cons, List.foldl_cons]
      exact ih _
  exact h m 0

theorem convIdInjOn_mono (S T : List String) (hsub : ∀ x ∈ T, x ∈ S)
    (h : convIdInjOn S) : convIdInjOn T :=
  fun i hi j hj hc => h i (hsub i hi) j (hsub j hj) hc

theorem fragIds_cons (tc : ToolCallFragment) (tcs : List ToolCallFragment) :
    fragIds (tc :: tcs) = fragIds [tc] ++ fragIds tcs := by
  by_cases h : isTruthy tc.id = true <;> simp [fragIds, h]

theorem convertFrag_repass (m : IdxMap) (tc : ToolCallFragment)
    (hinj : convIdInjOn (m.map Prod.fst ++ fragIds [tc])) :
    convertFrag (mapKeysConv m) (convertFrag m tc).2 =
      (mapKeysConv (convertFrag m tc).1, (convertFrag m tc).2) := by
  by_cases htr : isTruthy tc.id = true
  · cases hid : tc.id with
    | none => rw [hid] at htr; exact absurd htr (by decide)
    | some i =>
      have hie : i.isEmpty = false := by
        rw [hid] at htr
        simpa [isTruthy] using htr
      have hIdsEq : fragIds [tc] = [i] := by
        simp [fragIds, List.filterMap_cons, List.filterMap_nil, htr, hid, isTruthy_some, hie]
      have hinj' : ∀ k ∈ m.map Prod.fst,
          convert_tool_call_id k = convert_tool_call_id i → k = i := by
        intro k hk hc
        refine hinj k (List.mem_append_left _ hk) i ?_ hc
        rw [hIdsEq]
        exact List.mem_append_right _ (by simp)
      have hciE : (convert_tool_call_id i).isEmpty = false := conv_nonempty i hie
      by_cases hm : (List.lookup i m).isSome = true
      · obtain ⟨v, hv⟩ := Option.isSome_iff_exists.mp hm
        have h1 : convertFrag m tc =
            (m, { tc with id := some (convert_tool_call_id i), index := some v }) := by
          unfold convertFrag
          rw [hid]
          simp [isTruthy, hie, hv]
        have hl : (mapKeysConv m).lookup (convert_tool_call_id i) = some v := by
          rw [lookup_mapKeysConv_eq i m hinj', hv]
        have h2 : convertFrag (mapKeysConv m)
            { tc with id := some (convert_tool_call_id i), index := some v } =
            (mapKeysConv m,
              { tc with id := some (convert_tool_call_id i), index := some v }) := by
          unfold convertFrag
          simp [isTruthy, hciE, hl, conv_idem]
        rw [h1]
        exact h2
      · have hnone : List.lookup i m = none := by
          cases hx : List.lookup i m
          · rfl
          · rw [hx] at hm; exact absurd rfl hm
        have hidx : (m ++ [(i, m.length)]).lookup i = some m.length := by
          rw [lookup_append_right i m _ hnone]
          simp [List.lookup]
        have h1 : convertFrag m tc =
            (m ++ [(i, m.length)],
              { tc with id := some (convert_tool_call_id i), index := some m.length }) := by
          unfold convertFrag
          rw [hid]
          simp [isTruthy, hie, hnone, hidx]
        have hl : (mapKeysConv m).lookup (convert_tool_call_id i) = none := by
          rw [lookup_mapKeysConv_eq i m hinj', hnone]
        have hidx2 : (mapKeysConv m ++
            [(convert_tool_call_id i, m.length)]).lookup
              (convert_tool_call_id i) = some m.length := by
          rw [lookup_append_right _ _ _ hl]
          simp [List.lookup]
        have h2 : convertFrag (mapKeysConv m)
            { tc with id := some (convert_tool_call_id i), index := some m.length } =
            (mapKeysConv m ++ [(convert_tool_call_id i, m.length)],
              { tc with id := some (convert_tool_call_id i), index := some m.length }) := by
          unfold convertFrag
          simp [isTruthy, hciE, hl, hidx2, conv_idem, mapKeysConv_length]
        have h3 : mapKeysConv (m ++ [(i, m.length)]) =
            mapKeysConv m ++ [(convert_tool_call_id i, m.length)] := by
          rw [mapKeysConv_append]
          rfl
        rw [h1]
        rw [h2, h3]
  · have htr' : isTruthy tc.id = false := by
      cases h : isTruthy tc.id
      · rfl
      · exact absurd h htr
    by_cases hme : m.isEmpty = true
    · have h1 : convertFrag m tc = (m, tc) := by
        unfold convertFrag
        simp [htr', hme]
      have h2 : convertFrag (mapKeysConv m) tc = (mapKeysConv m, tc) := by
        unfold convertFrag
        simp [htr', mapKeysConv_isEmpty, hme]
      rw [h1]
      exact h2
    · have hme' : m.isEmpty = false := by
        cases h : m.isEmpty
        · rfl
        · exact absurd h hme
      have h1 : convertFrag m tc = (m, { tc with index := some (maxValues m) }) := by
        unfold convertFrag
        simp [htr', hme']
      have h2 : convertFrag (mapKeysConv m) { tc with index := some (maxValues m) } =
          (mapKeysConv m, { tc with index := some (maxValues m) }) := by
        unfold convertFrag
        simp [htr', mapKeysConv_isEmpty, hme', maxValues_mapKeysConv]
      rw [h1]
      exact h2

theorem convertFrag_keys (m : IdxMap) (tc : ToolCallFragment) :
    ∀ k ∈ ((convertFrag m tc).1).map Prod.fst, k ∈ m.map Prod.fst ++ fragIds [tc] := by
  intro k hk
  unfold convertFrag at hk
  by_cases htr : isTruthy tc.id = true
  · simp only [htr, if_true] at hk
    by_cases hm : (m.lookup (tc.id.getD "")).isSome = true
    · simp only [hm, if_true] at hk
      exact List.mem_append_left _ hk
    · simp only [hm, if_false, Bool.false_eq_true] at hk
      rw [List.map_append] at hk
      rcases List.mem_append.mp hk with h | h
      · exact List.mem_append_left _ h
      · have hIds : fragIds [tc] = [tc.id.getD ""] := by
          simp [fragIds, List.filterMap_cons, List.filterMap_nil, htr]
        refine List.mem_append_right _ ?_
        rw [hIds]
        simpa using h
  · simp only [htr, if_false, Bool.false_eq_true] at hk
    rcases hme : m.isEmpty with _ | _ <;> rw [hme] at hk <;>
      simp only [if_true, if_false, Bool.false_eq_true] at hk <;>
      exact List.mem_append_left _ hk

theorem convertFrags_length : ∀ (tcs : List ToolCallFragment) (m : IdxMap),
    (convertFrags m tcs).2.length = tcs.length := by
  intro tcs
  induction tcs with
  | nil => intro m; rfl
  | cons tc tcs ih =>
    intro m
    simp only [convertFrags, List.length_cons]
    rw [ih]

theorem convertFrags_keys : ∀ (tcs : List ToolCallFragment) (m : IdxMap),
    ∀ k ∈ ((convertFrags m tcs).1).map Prod.fst, k ∈ m.map Prod.fst ++ fragIds tcs := by
  intro tcs
  induction tcs with
  | nil => intro m k hk; exact List.mem_append_left _ hk
  | cons tc tcs ih =>
    intro m k hk
    simp only [convertFrags] at hk
    have h1 := ih (convertFrag m tc).1 k hk
    rw [fragIds_cons]
    rcases List.mem_append.mp h1 with h | h
    · have h2 := convertFrag_keys m tc k h
      rcases List.mem_append.mp h2 with h3 | h3
      · exact List.mem_append_left _ h3
      · exact List.mem_append_right _ (List.mem_append_left _ h3)
    · exact List.mem_append_right _ (List.mem_append_right _ h)

theorem convertFrags_repass : ∀ (tcs : List ToolCallFragment) (m : IdxMap),
    convIdInjOn (m.map Prod.fst ++ fragIds tcs) →
    convertFrags (mapKeysConv m) (convertFrags m tcs).2 =
      (mapKeysConv (convertFrags m tcs).1, (convertFrags m tcs).2) := by
  intro tcs
  induction tcs with
  | nil => intro m _; rfl
  | cons tc tcs ih =>
    intro m hinj
    have hsub1 : ∀ x ∈ m.map Prod.fst ++ fragIds [tc],
        x ∈ m.map Prod.fst ++ fragIds (tc :: tcs) := by
      intro x hx
      rw [fragIds_cons]
      rcases List.mem_append.mp hx with h | h
      · exact List.mem_append_left _ h
      · exact List.mem_append_right _ (List.mem_append_left _ h)
    have h1 := convertFrag_repass m tc (convIdInjOn_mono _ _ hsub1 hinj)
    have hsub2 : ∀ x ∈ (convertFrag m tc).1.map Prod.fst ++ fragIds tcs,
        x ∈ m.map Prod.fst ++ fragIds (tc :: tcs) := by
      intro x hx
      rcases List.mem_append.mp hx with h | h
      · exact hsub1 x (convertFrag_keys m tc x h)
      · rw [fragIds_cons]
        exact List.mem_append_right _ (List.mem_append_right _ h)
    have h2 := ih (convertFrag m tc).1 (convIdInjOn_mono _ _ hsub2 hinj)
    show convertFrags (mapKeysConv m)
        ((convertFrags (convertFrag m tc).1 tcs).1,
          (convertFrag m tc).2 :: (convertFrags (convertFrag m tc).1 tcs).2).2 = _
    simp only [convertFrags]
    rw [h1]
    simp only []
    rw [h2]

theorem convertChunk_keys (c : Chunk) (m : IdxMap) :
    ∀ k ∈ ((convertChunk c m).2).map Prod.fst, k ∈ m.map Prod.fst ++ chunkIds c := by
  intro k hk
  unfold convertChunk at hk
  cases hch : c.choices with
  | nil =>
    rw [hch] at hk
    exact List.mem_append_left _ hk
  | cons choice rest =>
    rw [hch] at hk
    by_cases htc : (choice.delta.getD {}).tool_calls.isEmpty = true
    · simp only [htc, if_true] at hk
      exact List.mem_append_left _ hk
    · simp only [htc, if_false, Bool.false_eq_true] at hk
      have h1 := convertFrags_keys (choice.delta.getD {}).tool_calls m k hk
      have hIds : chunkIds c = fragIds (choice.delta.getD {}).tool_calls := by
        unfold chunkIds
        rw [hch]
      rw [hIds]
      exact h1

theorem convertChunk_repass (c : Chunk) (m : IdxMap)
    (hinj : convIdInjOn (m.map Prod.fst ++ chunkIds c)) :
    convertChunk (convertChunk c m).1 (mapKeysConv m) =
      ((convertChunk c m).1, mapKeysConv (convertChunk c m).2) := by
  unfold convertChunk
  cases hch : c.choices with
  | nil => simp [hch]
  | cons choice rest =>
    by_cases htc : (choice.delta.getD {}).tool_calls.isEmpty = true
    · simp [hch, htc]
    · have hIds : chunkIds c = fragIds (choice.delta.getD {}).tool_calls := by
        unfold chunkIds
        rw [hch]
      rw [hIds] at hinj
      have hfr := convertFrags_repass (choice.delta.getD {}).tool_calls m hinj
      have hne : (convertFrags m (choice.delta.getD {}).tool_calls).2.isEmpty = false := by
        cases h2 : (convertFrags m (choice.delta.getD {}).tool_calls).2.isEmpty
        · rfl
        · refine absurd ?_ htc
          have h3 := List.isEmpty_iff.mp h2
          have h4 := convertFrags_length (choice.delta.getD {}).tool_calls m
          rw [h3] at h4
          exact List.isEmpty_iff.mpr (List.length_eq_zero.mp h4.symm)
      simp only [hch, htc, Bool.false_eq_true, if_false]
      simp [hne, hfr]

theorem convertStream_keys : ∀ (cs : List Chunk) (m : IdxMap),
    ∀ k ∈ ((convertStream cs m).2).map Prod.fst, k ∈ m.map Prod.fst ++ streamIds cs := by
  intro cs
  induction cs with
  | nil => intro m k hk; exact List.mem_append_left _ hk
  | cons c cs ih =>
    intro m k hk
    simp only [convertStream] at hk
    have h1 := ih (convertChunk c m).2 k hk
    have hstr : streamIds (c :: cs) = chunkIds c ++ streamIds cs := by
      simp [streamIds]
    rw [hstr]
    rcases List.mem_append.mp h1 with h | h
    · have h2 := convertChunk_keys c m k h
      rcases List.mem_append.mp h2 with h3 | h3
      · exact List.mem_append_left _ h3
      · exact List.mem_append_right _ (List.mem_append_left _ h3)
    · exact List.mem_append_right _ (List.mem_append_right _ h)

theorem convertStream_repass : ∀ (cs : List Chunk) (m : IdxMap),
    convIdInjOn (m.map Prod.fst ++ streamIds cs) →
    convertStream (convertStream cs m).1 (mapKeysConv m) =
      ((convertStream cs m).1, mapKeysConv (convertStream cs m).2) := by
  intro cs
  induction cs with
  | nil => intro m _; rfl
  | cons c cs ih =>
    intro m hinj
    have hstr : streamIds (c :: cs) = chunkIds c ++ streamIds cs := by
      simp [streamIds]
    rw [hstr] at hinj
    have hsub1 : ∀ x ∈ m.map Prod.fst ++ chunkIds c,
        x ∈ m.map Prod.fst ++ (chunkIds c ++ streamIds cs) := by
      intro x hx
      rcases List.mem_append.mp hx with h | h
      · exact List.mem_append_left _ h
      · exact List.mem_append_right _ (List.mem_append_left _ h)
    have h1 := convertChunk_repass c m (convIdInjOn_mono _ _ hsub1 hinj)
    have hsub2 : ∀ x ∈ (convertChunk c m).2.map Prod.fst ++ streamIds cs,
        x ∈ m.map Prod.fst ++ (chunkIds c ++ streamIds cs) := by
      intro x hx
      rcases List.mem_append.mp hx with h | h
      · exact hsub1 x (convertChunk_keys c m x h)
      · exact List.mem_append_right _ (List.mem_append_right _ h)
    have h2 := ih (convertChunk c m).2 (convIdInjOn_mono _ _ hsub2 hinj)
    simp only [convertStream]
    rw [h1]
    simp only []
    rw [h2]

/-- C3 (counterexample): the original claim fails — re-feeding a chunk whose
identifier was already translated from the `tooluse_` form to the `call_`
form through the same stream map allocates a second position: converting
`idChunk "tooluse_x" "f"` yields a map with one entry, and feeding the
converted output chunk back through the conversion with that same map grows
the map to two entries and changes the chunk (its fragment index moves to the
freshly allocated position `1`). -/
theorem C3_counterexample_same_map_refeed :
    (convertChunk (convertChunk (idChunk "tooluse_x" "f") []).1
        (convertChunk (idChunk "tooluse_x" "f") []).2).2.length = 2 ∧
      (convertChunk (convertChunk (idChunk "tooluse_x" "f") []).1
          (convertChunk (idChunk "tooluse_x" "f") []).2).1 ≠
        (convertChunk (idChunk "tooluse_x" "f") []).1 := by
  decide

/-- C3 (amended): identifier remapping is idempotent across whole passes:
feeding the Stream Translator's converted output stream through the
conversion again — with the fresh per-stream map a new pass starts with —
reproduces the converted stream unchanged, provided translation introduces no
identifier collisions among the stream's ids (which holds in particular for
any stream of vendor `tooluse_` ids with distinct suffixes).  Re-feeding an
already-translated identifier into the same live map, by contrast, does
allocate a second position (see the counterexample). -/
theorem C3_amended_fresh_pass_idempotent (chunks : List Chunk)
    (hinj : convIdInjOn (streamIds chunks)) :
    convertAll (convertAll chunks) = convertAll chunks := by
  unfold convertAll
  have h := convertStream_repass chunks [] hinj
  calc (convertStream (convertStream chunks []).1 []).1
      = (convertStream (convertStream chunks []).1 (mapKeysConv [])).1 := rfl
    _ = ((convertStream chunks []).1, mapKeysConv (convertStream chunks []).2).1 := by rw [h]
    _ = (convertStream chunks []).1 := rfl

theorem C3_amended_fresh_pass_idempotent_witness :
    convIdInjOn (streamIds [idChunk "tooluse_x" "f", argChunk "z"]) ∧
      convertAll (convertAll [idChunk "tooluse_x" "f", argChunk "z"]) =
        convertAll [idChunk "tooluse_x" "f", argChunk "z"] :=
  ⟨by unfold convIdInjOn; decide, C3_amended_fresh_pass_idempotent _ (by unfold convIdInjOn; decide)⟩

/-! ### What a no-id fragment is actually assigned (C4) -/

theorem maxValues_eq_foldl_values (m : IdxMap) :
    maxValues m = (m.map Prod.snd).foldl max 0 := by
  have h : ∀ (l : IdxMap) (acc : Nat),
      l.foldl (fun a p => max a p.2) acc = (l.map Prod.snd).foldl max acc := by
    intro l
    induction l with
    | nil => intro acc; rfl
    | cons p l ih =>
      intro acc
      simp only [List.foldl_cons, List.map_cons]
      exact ih _
  exact h m 0

theorem foldl_max_range : ∀ (n : Nat), (List.range n).foldl max 0 = n - 1 := by
  intro n
  induction n with
  | zero => rfl
  | succ n ih =>
    rw [List.range_succ, List.foldl_append, ih]
    simp [Nat.max_eq_right (Nat.sub_le n 1)]

theorem maxValues_of_allocInv (m : IdxMap) (h : allocInv m) :
    maxValues m = m.length - 1 := by
  rw [maxValues_eq_foldl_values, h, foldl_max_range]

theorem allocInv_nil : allocInv [] := rfl

theorem allocInv_convertFrag (m : IdxMap) (tc : ToolCallFragment) (h : allocInv m) :
    allocInv (convertFrag m tc).1 := by
  unfold convertFrag
  by_cases htr : isTruthy tc.id = true
  · simp only [htr, if_true]
    by_cases hm : (m.lookup (tc.id.getD "")).isSome = true
    · simpa [hm] using h
    · simp only [hm, Bool.false_eq_true, if_false]
      unfold allocInv at h ⊢
      simp [List.range_succ, h]
  · simp only [htr, Bool.false_eq_true, if_false]
    by_cases hme : m.isEmpty = true <;> simp [hme, h]

theorem allocInv_convertFrags : ∀ (tcs : List ToolCallFragment) (m : IdxMap),
    allocInv m → allocInv (convertFrags m tcs).1 := by
  intro tcs
  induction tcs with
  | nil => intro m h; exact h
  | cons tc tcs ih =>
    intro m h
    simp only [convertFrags]
    exact ih _ (allocInv_convertFrag m tc h)

theorem allocInv_convertChunk (c : Chunk) (m : IdxMap) (h : allocInv m) :
    allocInv (convertChunk c m).2 := by
  unfold convertChunk
  cases hch : c.choices with
  | nil => exact h
  | cons choice rest =>
    by_cases htc : (choice.delta.getD {}).tool_calls.isEmpty = true
    · simpa [htc] using h
    · simp only [htc, Bool.false_eq_true, if_false]
      exact allocInv_convertFrags _ m h

theorem allocInv_convertStream : ∀ (cs : List Chunk) (m : IdxMap),
    allocInv m → allocInv (convertStream cs m).2 := by
  intro cs
  induction cs with
  | nil => intro m h; exact h
  | cons c cs ih =>
    intro m h
    simp only [convertStream]
    exact ih _ (allocInv_convertChunk c m h)

/-- C4 (counterexample): the original claim fails — after call `a` reserves
position `0` and call `b` reserves position `1`, a re-mention of `a` makes
`a` the most recently seen identifier (still at position `0`), yet the
following fragment without an id is assigned position `1`
(`max(tool_call_index_map.values())`), not `a`'s position `0`. -/
theorem C4_counterexample_no_id_ignores_recent_id :
    (convertAll [idChunk "a" "f", idChunk "b" "g", idChunk "a" "f",
        argChunk "z"]).map fragIndexOfChunk = [some 0, some 1, some 0, some 1] ∧
      ((convertStream [idChunk "a" "f", idChunk "b" "g", idChunk "a" "f",
          argChunk "z"] []).2).lookup "a" = some 0 := by
  decide

/-- C4 (amended): a tool-call fragment carrying no explicit identifier is
assigned the highest position allocated so far in the stream — the position
of the most recently *allocated* identifier, `max` over the index map built
from the start of the stream — regardless of which identifier was most
recently seen. -/
theorem C4_amended_no_id_gets_last_allocated (chunks : List Chunk)
    (tc : ToolCallFragment) (h1 : isTruthy tc.id = false)
    (h2 : (convertStream chunks []).2.isEmpty = false) :
    (convertFrag (convertStream chunks []).2 tc).2.index =
      some ((convertStream chunks []).2.length - 1) := by
  have hinv : allocInv (convertStream chunks []).2 :=
    allocInv_convertStream chunks [] allocInv_nil
  unfold convertFrag
  simp [h1, h2, maxValues_of_allocInv _ hinv]

theorem C4_amended_no_id_gets_last_allocated_witness :
    isTruthy (ToolCallFragment.mk none none (some 0)
        (some { arguments := some "z" })).id = false ∧
      (convertStream [idChunk "a" "f", idChunk "b" "g"] []).2.isEmpty = false ∧
      (convertFrag (convertStream [idChunk "a" "f", idChunk "b" "g"] []).2
          (ToolCallFragment.mk none none (some 0)
            (some { arguments := some "z" }))).2.index =
        some ((convertStream [idChunk "a" "f", idChunk "b" "g"] []).2.length - 1) :=
  ⟨by decide, by decide,
    C4_amended_no_id_gets_last_allocated [idChunk "a" "f", idChunk "b" "g"] _
      (by decide) (by decide)⟩

/-! ### Merge direction of id / model / fingerprint (C5) -/

theorem pyOr_truthy (a b : Option String) (h : isTruthy a = true) : pyOr a b = a := by
  unfold pyOr
  rw [h]
  rfl

theorem pyOr_falsy (a b : Option String) (h : isTruthy a = false) : pyOr a b = b := by
  unfold pyOr
  rw [h]
  rfl

theorem process_chunk_idmodfp (st : AggState) (c : Chunk) :
    (process_chunk st c).data.id = pyOr st.data.id c.id ∧
      (process_chunk st c).data.model = pyOr st.data.model c.model ∧
      (process_chunk st c).data.system_fingerprint =
        pyOr c.system_fingerprint st.data.system_fingerprint := by
  rcases c with ⟨id, model, fp, usage, choices⟩
  cases choices with
  | nil => by_cases hu : truthyUsage usage <;> simp [process_chunk, hu]
  | cons choice rest =>
    by_cases hfr : isTruthy choice.finish_reason <;>
      by_cases hct : isTruthy ((choice.delta.getD {}).content) <;>
        by_cases htc : (choice.delta.getD {}).tool_calls.isEmpty <;>
          by_cases hu : truthyUsage usage <;>
            simp [process_chunk, hfr, hct, htc, hu, foldToolCalls_data]

theorem fold_id : ∀ (chunks : List Chunk) (st : AggState),
    (chunks.foldl process_chunk st).data.id =
      (chunks.map (fun c => c.id)).foldl pyOr st.data.id := by
  intro chunks
  induction chunks with
  | nil => intro st; rfl
  | cons c cs ih =>
    intro st
    rw [List.foldl_cons, List.map_cons, List.foldl_cons, ih,
      (process_chunk_idmodfp st c).1]

theorem fold_model : ∀ (chunks : List Chunk) (st : AggState),
    (chunks.foldl process_chunk st).data.model =
      (chunks.map (fun c => c.model)).foldl pyOr st.data.model := by
  intro chunks
  induction chunks with
  | nil => intro st; rfl
  | cons c cs ih =>
    intro st
    rw [List.foldl_cons, List.map_cons, List.foldl_cons, ih,
      (process_chunk_idmodfp st c).2.1]

theorem fold_fp : ∀ (chunks : List Chunk) (st : AggState),
    (chunks.foldl process_chunk st).data.system_fingerprint =
      (chunks.map (fun c => c.system_fingerprint)).foldl
        (fun a o => pyOr o a) st.data.system_fingerprint := by
  intro chunks
  induction chunks with
  | nil => intro st; rfl
  | cons c cs ih =>
    intro st
    rw [List.foldl_cons, List.map_cons, List.foldl_cons, ih,
      (process_chunk_idmodfp st c).2.2]

theorem firstTruthyStr_truthy : ∀ (l : List (Option String)),
    firstTruthyStr l = none ∨ isTruthy (firstTruthyStr l) = true := by
  intro l
  induction l with
  | nil => exact Or.inl rfl
  | cons o l ih =>
    by_cases h : isTruthy o = true
    · right
      simpa [firstTruthyStr, h] using h
    · simpa [firstTruthyStr, h] using ih

theorem foldl_pyOr_truthy : ∀ (l : List (Option String)) (a : Option String),
    isTruthy a = true → l.foldl pyOr a = a := by
  intro l
  induction l with
  | nil => intro a _; rfl
  | cons o l ih =>
    intro a ha
    rw [List.foldl_cons, pyOr_truthy a o ha]
    exact ih a ha

theorem foldl_pyOr_first : ∀ (l : List (Option String)) (a : Option String) (v : String),
    isTruthy a = false → firstTruthyStr l = some v → l.foldl pyOr a = some v := by
  intro l
  induction l with
  | nil => intro a v _ h; exact absurd h (by simp [firstTruthyStr])
  | cons o l ih =>
    intro a v ha h
    rw [List.foldl_cons, pyOr_falsy a o ha]
    by_cases ho : isTruthy o = true
    · rw [firstTruthyStr, if_pos ho] at h
      rw [h] at ho ⊢
      exact foldl_pyOr_truthy l _ ho
    · have ho' : isTruthy o = false := by
        cases hx : isTruthy o
        · rfl
        · exact absurd hx ho
      rw [firstTruthyStr, if_neg (by rw [ho']; exact Bool.false_ne_true)] at h
      exact ih o v ho' h

theorem firstTruthyStr_append : ∀ (xs ys : List (Option String)),
    firstTruthyStr (xs ++ ys) = pyOr (firstTruthyStr xs) (firstTruthyStr ys) := by
  intro xs ys
  induction xs with
  | nil =>
    simp [firstTruthyStr, pyOr, isTruthy]
  | cons o xs ih =>
    by_cases h : isTruthy o = true
    · rw [List.cons_append, firstTruthyStr, if_pos h, firstTruthyStr, if_pos h,
        pyOr_truthy _ _ h]
    · rw [List.cons_append, firstTruthyStr, if_neg h, firstTruthyStr, if_neg h, ih]

theorem foldl_pyOrRev_last : ∀ (l : List (Option String)) (acc : Option String),
    l.foldl (fun a o => pyOr o a) acc = pyOr (lastTruthyStr l) acc := by
  intro l
  induction l with
  | nil => intro acc; rfl
  | cons o l ih =>
    intro acc
    rw [List.foldl_cons, ih]
    have hrw : lastTruthyStr (o :: l) =
        pyOr (lastTruthyStr l) (firstTruthyStr [o]) := by
      unfold lastTruthyStr
      rw [List.reverse_cons, firstTruthyStr_append]
    rw [hrw]
    rcases firstTruthyStr_truthy l.reverse with h | h
    · have hL : lastTruthyStr l = none := h
      rw [hL, pyOr_falsy none (pyOr o acc) rfl, pyOr_falsy none (firstTruthyStr [o]) rfl]
      by_cases ho : isTruthy o = true
      · have hF : firstTruthyStr [o] = o := by simp [firstTruthyStr, ho]
        rw [hF]
      · have ho' : isTruthy o = false := by
          cases hx : isTruthy o
          · rfl
          · exact absurd hx ho
        have hF : firstTruthyStr [o] = none := by simp [firstTruthyStr, ho']
        rw [hF, pyOr_falsy o acc ho', pyOr_falsy none acc rfl]
    · have hL : isTruthy (lastTruthyStr l) = true := h
      rw [pyOr_truthy _ (pyOr o acc) hL, pyOr_truthy _ (firstTruthyStr [o]) hL,
        pyOr_truthy _ acc hL]

/-- C5 (counterexample): the original claim fails for the system
fingerprint — the merge at `codebuddy_router.py` line 310 is
`obj.get('system_fingerprint') or self.data[...]`, so a later non-empty
fingerprint overwrites the earlier one: aggregating two chunks carrying
fingerprints `"f1"` then `"f2"` ends with `"f2"`, not the first non-empty
value `"f1"`. -/
theorem C5_counterexample_fingerprint_overwritten :
    (aggregateList [{ system_fingerprint := some "f1" },
        { system_fingerprint := some "f2" }]).data.system_fingerprint = some "f2" ∧
      firstTruthyStr ([({ system_fingerprint := some "f1" } : Chunk),
          { system_fingerprint := some "f2" }].map
            fun c => c.system_fingerprint) = some "f1" := by
  decide

/-- C5 (amended): the response identifier and model of the aggregated result
each equal the first non-empty value seen across the stream and are never
overwritten; the system fingerprint, by contrast, equals the LAST non-empty
value seen (each later non-empty fingerprint overwrites the current one). -/
theorem C5_amended_first_id_model_last_fingerprint
    (chunks : List Chunk) (v w : String)
    (hid : firstTruthyStr (chunks.map (fun c => c.id)) = some v)
    (hmodel : firstTruthyStr (chunks.map (fun c => c.model)) = some w) :
    (aggregateList chunks).data.id = some v ∧
      (aggregateList chunks).data.model = some w ∧
      (aggregateList chunks).data.system_fingerprint =
        lastTruthyStr (chunks.map (fun c => c.system_fingerprint)) := by
  refine ⟨?_, ?_, ?_⟩
  · rw [aggregateList, fold_id]
    exact foldl_pyOr_first _ _ _ (by decide) hid
  · rw [aggregateList, fold_model]
    exact foldl_pyOr_first _ _ _ (by decide) hmodel
  · rw [aggregateList, fold_fp, foldl_pyOrRev_last]
    rcases firstTruthyStr_truthy (chunks.map
        (fun c => c.system_fingerprint)).reverse with h | h
    · unfold lastTruthyStr
      rw [h]
      rfl
    · exact pyOr_truthy _ _ h

theorem C5_amended_first_id_model_last_fingerprint_witness :
    firstTruthyStr ([({ id := some "i1", system_fingerprint := some "f1" } : Chunk),
        { id := some "i2", model := some "m1", system_fingerprint := some "f2" }].map
          fun c => c.id) = some "i1" ∧
      firstTruthyStr ([({ id := some "i1", system_fingerprint := some "f1" } : Chunk),
          { id := some "i2", model := some "m1", system_fingerprint := some "f2" }].map
            fun c => c.model) = some "m1" ∧
      (aggregateList [{ id := some "i1", system_fingerprint := some "f1" },
          { id := some "i2", model := some "m1",
            system_fingerprint := some "f2" }]).data.id = some "i1" ∧
      (aggregateList [{ id := some "i1", system_fingerprint := some "f1" },
          { id := some "i2", model := some "m1",
            system_fingerprint := some "f2" }]).data.model = some "m1" ∧
      (aggregateList [{ id := some "i1", system_fingerprint := some "f1" },
          { id := some "i2", model := some "m1",
            system_fingerprint := some "f2" }]).data.system_fingerprint =
        lastTruthyStr ([({ id := some "i1", system_fingerprint := some "f1" } : Chunk),
            { id := some "i2", model := some "m1",
              system_fingerprint := some "f2" }].map
              fun c => c.system_fingerprint) := by
  have h := C5_amended_first_id_model_last_fingerprint
    [{ id := some "i1", system_fingerprint := some "f1" },
     { id := some "i2", model := some "m1", system_fingerprint := some "f2" }]
    "i1" "m1" (by decide) (by decide)
  exact ⟨by decide, by decide, h.1, h.2.1, h.2.2⟩

/-- C6 (counterexample): the original claim misstates the first example —
for the concatenated-objects input the split loop re-serializes the first
parsed object through the JSON dumper, whose default separators insert a
space after the colon, so the output carries a space and is not the
byte-identical first object the claim promises. -/
theorem C6_counterexample_split_redumps :
    validate_and_fix_tool_call_args "\x7b\"a\":1\x7d\x7b\"b\":2\x7d" =
        "\x7b\"a\": 1\x7d" ∧
      "\x7b\"a\": 1\x7d" ≠ "\x7b\"a\":1\x7d" := by
  constructor
  · decide
  · decide

/-- C6 (amended): Argument Repair always terminates with syntactically valid
JSON text; concatenated objects are split by a brace-depth counter and the
first successfully parsed object is returned re-serialized with the default
separators (so a space follows each colon); a truncated object gets its
missing closer appended and is returned byte-identically otherwise; input no
repair can make valid yields the empty object. -/
theorem C6_amended_repair_valid_and_examples :
    (∀ s : String, isValidJson (validate_and_fix_tool_call_args s) = true) ∧
      validate_and_fix_tool_call_args "\x7b\"a\":1\x7d\x7b\"b\":2\x7d" =
        "\x7b\"a\": 1\x7d" ∧
      validate_and_fix_tool_call_args "\x7b\"a\":1" = "\x7b\"a\":1\x7d" ∧
      validate_and_fix_tool_call_args "not json" = "\x7b\x7d" :=
  ⟨validFix_valid, by decide, by decide, by decide⟩

/-- C7: the Response Aggregator has no open/finalized state machine at all —
its state is exactly `data`, `tool_call_map`, `tool_call_order` and
`current_tool_id`, with no flag recording finalization, and neither
`process_chunk` nor `finalize` inspects or rejects anything on re-entry.
Concretely: after aggregating and finalizing one stream, a further
`process_chunk` call is silently accepted and keeps aggregating (the content
grows), and a second `finalize` returns a second normal response built from
the mutated state, instead of either call failing loudly. -/
theorem C7_reentry_silently_accepted :
    (process_chunk (finalize (aggregateList [contentChunk "hello"]) 0 "rid").1
        (contentChunk " world")).data.content = "hello world" ∧
      ((finalize (process_chunk
            (finalize (aggregateList [contentChunk "hello"]) 0 "rid").1
            (contentChunk " world")) 0 "rid").2.choices.map
          fun c => c.message.content) = ["hello world"] := by
  decide

/-! ### The retry transport (C8) -/

theorem countRetrying_append (l1 l2 : List (TraceEv α)) :
    countRetrying (l1 ++ l2) = countRetrying l1 + countRetrying l2 := by
  induction l1 with
  | nil => simp [countRetrying]
  | cons e l ih =>
    cases e <;> simp [countRetrying, ih] <;> omega

theorem countRetrying_map_data (evs : List α) :
    countRetrying (evs.map TraceEv.data) = 0 := by
  induction evs with
  | nil => rfl
  | cons e l ih => simpa [countRetrying] using ih

theorem sleepsOf_append (l1 l2 : List (TraceEv α)) :
    sleepsOf (l1 ++ l2) = sleepsOf l1 ++ sleepsOf l2 := by
  induction l1 with
  | nil => rfl
  | cons e l ih =>
    cases e <;> simp [sleepsOf, ih]

theorem sleepsOf_map_data (evs : List α) :
    sleepsOf (evs.map TraceEv.data) = [] := by
  induction evs with
  | nil => rfl
  | cons e l ih => simpa [sleepsOf] using ih

theorem countRetrying_retrying (w : ℚ) (n : Nat) (tr : List (TraceEv α)) :
    countRetrying (TraceEv.retrying w n :: tr) = countRetrying tr + 1 := rfl

theorem countRetrying_sleep (w : ℚ) (tr : List (TraceEv α)) :
    countRetrying (TraceEv.sleep w :: tr) = countRetrying tr := rfl

theorem countRetrying_failed (n : Nat) (tr : List (TraceEv α)) :
    countRetrying (TraceEv.failedNote n :: tr) = countRetrying tr := rfl

theorem countRetrying_error (tr : List (TraceEv α)) :
    countRetrying (TraceEv.errorNote :: tr) = countRetrying tr := rfl

theorem countRetrying_nil : countRetrying ([] : List (TraceEv α)) = 0 := rfl

theorem sleepsOf_retrying (w : ℚ) (n : Nat) (tr : List (TraceEv α)) :
    sleepsOf (TraceEv.retrying w n :: tr) = sleepsOf tr := rfl

theorem sleepsOf_sleep (w : ℚ) (tr : List (TraceEv α)) :
    sleepsOf (TraceEv.sleep w :: tr) = w :: sleepsOf tr := rfl

theorem sleepsOf_failed (n : Nat) (tr : List (TraceEv α)) :
    sleepsOf (TraceEv.failedNote n :: tr) = sleepsOf tr := rfl

theorem sleepsOf_error (tr : List (TraceEv α)) :
    sleepsOf (TraceEv.errorNote :: tr) = sleepsOf tr := rfl

theorem sleepsOf_nil : sleepsOf ([] : List (TraceEv α)) = [] := rfl

theorem runRetry_count (att : Nat → List α × Outcome) (m : Nat) (d : ℚ) :
    ∀ (fuel attempt : Nat),
      countRetrying (runRetry att m d attempt fuel).1 ≤ m - attempt := by
  intro fuel
  induction fuel with
  | zero => intro attempt; exact Nat.zero_le _
  | succ fuel ih =>
    intro attempt
    unfold runRetry
    rcases h : (att attempt).2 with _ | _ | _
    · simp [h, countRetrying_map_data]
    · by_cases hlt : attempt < m
      · simp only [h, hlt, if_true]
        rw [countRetrying_append, countRetrying_map_data,
          countRetrying_retrying, countRetrying_sleep]
        have := ih (attempt + 1)
        omega
      · simp only [h, hlt, if_false]
        rw [countRetrying_append, countRetrying_map_data,
          countRetrying_failed, countRetrying_nil]
        omega
    · simp only [h]
      rw [countRetrying_append, countRetrying_map_data,
        countRetrying_error, countRetrying_nil]
      omega

theorem runRetry_sleeps (att : Nat → List α × Outcome) (m : Nat) (d : ℚ) :
    ∀ (fuel attempt : Nat),
      sleepsOf (runRetry att m d attempt fuel).1 <+:
        (List.range (m - attempt)).map (fun k => d * 2 ^ (attempt + k)) := by
  intro fuel
  induction fuel with
  | zero => intro attempt; exact List.nil_prefix
  | succ fuel ih =>
    intro attempt
    unfold runRetry
    rcases h : (att attempt).2 with _ | _ | _
    · simp [h, sleepsOf_map_data, List.nil_prefix]
    · by_cases hlt : attempt < m
      · simp only [h, hlt, if_true]
        rw [sleepsOf_append, sleepsOf_map_data, List.nil_append,
          sleepsOf_retrying, sleepsOf_sleep]
        have hm : m - attempt = (m - (attempt + 1)) + 1 := by omega
        rw [hm, List.range_succ_eq_map, List.map_cons, List.map_map]
        have hfun : ((fun k => d * 2 ^ (attempt + k)) ∘ Nat.succ) =
            (fun k => d * 2 ^ ((attempt + 1) + k)) := by
          funext k
          show d * 2 ^ (attempt + Nat.succ k) = d * 2 ^ (Nat.succ attempt + k)
          rw [Nat.add_succ, Nat.succ_add]
        rw [hfun]
        refine List.cons_prefix_cons.mpr ⟨by rw [Nat.add_zero], ?_⟩
        exact ih (attempt + 1)
      · simp only [h, hlt, if_false]
        rw [sleepsOf_append, sleepsOf_map_data, List.nil_append,
          sleepsOf_failed, sleepsOf_nil]
        exact List.nil_prefix
    · simp only [h]
      rw [sleepsOf_append, sleepsOf_map_data, List.nil_append,
        sleepsOf_error, sleepsOf_nil]
      exact List.nil_prefix

/-- C8: the transport retries at most 3 times and only on transient
transport failures, with doubling waits from base 1 so the slept backoffs
are a prefix of 1, 2, 4; one `connection_retry` diagnostic event precedes
each sleep; a non-transient exception propagates immediately without any
retry; and transient failures on attempts 1 and 2 followed by success on
attempt 3 produce exactly the trace with two retry events and waits 1 and 2
before the successful stream completes. -/
theorem C8_retry_transport (α : Type) (att : Nat → List α × Outcome) :
    countRetrying (stream_with_retry att 3 1).1 ≤ 3 ∧
      sleepsOf (stream_with_retry att 3 1).1 <+: [1, 2, 4] ∧
      (∀ evs, att 0 = (evs, Outcome.fatal) →
        stream_with_retry att 3 1 =
          (evs.map TraceEv.data ++ [TraceEv.errorNote], RunResult.raisedFatal)) ∧
      (∀ e1 e2 e3, att 0 = (e1, Outcome.transient) →
        att 1 = (e2, Outcome.transient) → att 2 = (e3, Outcome.success) →
        stream_with_retry att 3 1 =
          (e1.map TraceEv.data ++ TraceEv.retrying 1 1 :: TraceEv.sleep 1 ::
            (e2.map TraceEv.data ++ TraceEv.retrying 2 2 :: TraceEv.sleep 2 ::
              e3.map TraceEv.data), RunResult.ok)) := by
  refine ⟨?_, ?_, ?_, ?_⟩
  · simpa using runRetry_count att 3 1 4 0
  · have h := runRetry_sleeps att 3 1 4 0
    have hlist : (List.range (3 - 0)).map (fun k => (1 : ℚ) * 2 ^ (0 + k)) =
        [1, 2, 4] := by
      norm_num [List.range_succ]
    rw [hlist] at h
    exact h
  · intro evs h
    simp [stream_with_retry, runRetry, h]
  · intro e1 e2 e3 h0 h1 h2
    simp [stream_with_retry, runRetry, h0, h1, h2]

theorem C8_retry_transport_witness :
    stream_with_retry (fun n => if n = 0 then ([10], Outcome.transient)
        else if n = 1 then ([20], Outcome.transient)
        else ([30], Outcome.success)) 3 (1 : ℚ) =
      ([TraceEv.data 10, TraceEv.retrying 1 1, TraceEv.sleep 1, TraceEv.data 20,
        TraceEv.retrying 2 2, TraceEv.sleep 2, TraceEv.data 30], RunResult.ok) := by
  have h := (C8_retry_transport Nat (fun n => if n = 0 then ([10], Outcome.transient)
      else if n = 1 then ([20], Outcome.transient)
      else ([30], Outcome.success))).2.2.2 [10] [20] [30] rfl rfl rfl
  simpa using h

/-- C9 (counterexample): the original claim fails — the conversion does NOT
leave the decoded chunk unchanged.  On the concrete heap `c9Heap
"tooluse_x"`, `convert_sse_chunk_to_openai_format` shallow-copies the chunk
dict (fresh cell 8), but the assignment through
`converted_chunk['choices'][0]['delta']['tool_calls']` follows the shared
`choices`/`delta` references into the INPUT chunk and overwrites the input
delta dict's `tool_calls` entry (cell 3) with the freshly built list
(cell 7), where it previously referenced cell 4. -/
theorem C9_counterexample_input_delta_mutated :
    dictGet (convertChunkHeap (c9Heap "tooluse_x") (.vRef 0) []).1 3 "tool_calls" =
        some (.vRef 7) ∧
      dictGet (c9Heap "tooluse_x") 3 "tool_calls" = some (.vRef 4) ∧
      (convertChunkHeap (c9Heap "tooluse_x") (.vRef 0) []).2.1 = .vRef 8 := by
  refine ⟨?_, ?_, ?_⟩ <;> decide

/-- C9 (amended): for every fragment id `s`, converting the well-shaped
decoded chunk `c9Heap s` returns a fresh top-level dict (cell 8, distinct
from the input chunk at cell 0) holding the converted fragment (cell 6 with
the translated id) — but it also writes the converted fragment list into
the input chunk's own nested delta dict (cell 3 now references the fresh
list at cell 7), so the decoded chunk's nested structure is mutated rather
than only read. -/
theorem C9_amended_fresh_top_but_nested_mutation (s : String)
    (hs : s.isEmpty = false) :
    dictGet (convertChunkHeap (c9Heap s) (.vRef 0) []).1 3 "tool_calls" =
        some (.vRef 7) ∧
      (convertChunkHeap (c9Heap s) (.vRef 0) []).2.1 = .vRef 8 ∧
      dictGet (convertChunkHeap (c9Heap s) (.vRef 0) []).1 6 "id" =
        some (.vStr (convert_tool_call_id s)) := by
  refine ⟨?_, ?_, ?_⟩ <;>
    simp [convertChunkHeap, convertFragsHeap, convertFragHeap, c9Heap, dictGet, dictSet,
      Heap.get, Heap.set, Heap.alloc, truthyStrVal, strOfVal, hs, List.lookup]

theorem C9_amended_fresh_top_but_nested_mutation_witness :
    ("tooluse_y").isEmpty = false ∧
      (dictGet (convertChunkHeap (c9Heap "tooluse_y") (.vRef 0) []).1 3 "tool_calls" =
          some (.vRef 7) ∧
        (convertChunkHeap (c9Heap "tooluse_y") (.vRef 0) []).2.1 = .vRef 8 ∧
        dictGet (convertChunkHeap (c9Heap "tooluse_y") (.vRef 0) []).1 6 "id" =
          some (.vStr (convert_tool_call_id "tooluse_y"))) :=
  ⟨by decide, C9_amended_fresh_top_but_nested_mutation "tooluse_y" (by decide)⟩

/-- C10: the upstream request headers depend only on the bearer token — for
any two calls of `generate_codebuddy_headers` with the same `bearer_token`
and arbitrary, possibly differing, user/conversation/request id arguments
(and fresh random values), the returned header mapping is identical, and it
is exactly the second literal dict (fixed `X-User-Id`, empty `User-Agent`),
because that second dict literal unconditionally rebinds `headers` and
shadows the first dict built from the arguments; the per-request
conversation and request id headers therefore never reach the upstream
call. -/
theorem C10_headers_depend_only_on_bearer_token
    (f1 f2 f3 f4 g1 g2 g3 g4 tok : String)
    (u1 u2 c1 c2 r1 r2 m1 m2 q1 q2 : Option String) :
    generate_codebuddy_headers f1 f2 f3 f4 tok u1 c1 r1 m1 q1 =
        generate_codebuddy_headers g1 g2 g3 g4 tok u2 c2 r2 m2 q2 ∧
      generate_codebuddy_headers f1 f2 f3 f4 tok u1 c1 r1 m1 q1 =
        fixedCodeBuddyHeaders tok :=
  ⟨rfl, rfl⟩

end CodeBuddy
